import Mathlib

/-!
Discordo: a verification development.

A shallow embedding of the parts of the terminal chat client that carry its
message navigation (`ui/messages.go`), its guild tree synchronisation
(`ui/app.go`), its markup translation (`internal/markdown/markdown.go`) and
its extension loading (`internal/plugin/plugin.go`), followed by theorems
about them.

Conventions of the embedding.

* Go slices are `List`s, Go `int` is `Int`, identifiers (snowflakes) are `Nat`.
* A handler that mutates the application returns the new application state.
  A Go runtime panic (index out of range, nil dereference) is the result
  `none`; a handler that finishes returns `some`.
* Calls into the widget toolkit, the chat library and the regular expression
  library are modelled by their documented contract.
-/

namespace Discordo

/-! ## Regular expressions (the fragment of Go's `regexp` the repository uses) -/

namespace regexp

/-- Abstract syntax of the regular expressions that occur in the repository.
There is a single capture group, written `group`, which is `$1`. -/
inductive Re where
  | eps : Re
  | char (c : Char) : Re
  | any (s : Bool) : Re
  | cls (p : Char → Bool) : Re
  | seq (a b : Re) : Re
  | opt (a : Re) : Re
  | lazyStar (a : Re) : Re
  | plus (a : Re) : Re
  | group (a : Re) : Re

/-- Concatenation of a list of expressions. -/
def Re.cat : List Re → Re
  | [] => Re.eps
  | r :: rs => Re.seq r (Re.cat rs)

/-- The literal text `s`. -/
def Re.lit (s : String) : Re :=
  Re.cat (s.toList.map Re.char)

/-- A match in progress: the text that remains and the text of group 1. -/
abbrev M := List Char × Option (List Char)

/-- The lazy iteration `a*?`: first try to stop, then try one more `a`.
`n` bounds the number of iterations by the length of the remaining text, since
every iteration has to consume at least one character. -/
def lazyLoop (m : List Char → Option (List Char) → (List Char → Option (List Char) → Option M) → Option M) :
    Nat → List Char → Option (List Char) → (List Char → Option (List Char) → Option M) → Option M
  | 0, s, cap, k => k s cap
  | n + 1, s, cap, k =>
    match k s cap with
    | some r => some r
    | none => m s cap (fun s1 cap1 => if s1.length < s.length then lazyLoop m n s1 cap1 k else none)

/-- The greedy iteration `a*`: first try one more `a`, then try to stop. -/
def greedyLoop (m : List Char → Option (List Char) → (List Char → Option (List Char) → Option M) → Option M) :
    Nat → List Char → Option (List Char) → (List Char → Option (List Char) → Option M) → Option M
  | 0, s, cap, k => k s cap
  | n + 1, s, cap, k =>
    match m s cap (fun s1 cap1 => if s1.length < s.length then greedyLoop m n s1 cap1 k else none) with
    | some r => some r
    | none => k s cap

/-- Leftmost-first (backtracking priority) matching of `r` at the start of `s`,
in continuation passing style: `k` receives the remaining text and the
capture, and the first alternative for which `k` succeeds wins. -/
def matchRe : Re → List Char → Option (List Char) → (List Char → Option (List Char) → Option M) → Option M
  | Re.eps, s, cap, k => k s cap
  | Re.char c, s, cap, k =>
    match s with
    | [] => none
    | x :: xs => if x = c then k xs cap else none
  | Re.any nl, s, cap, k =>
    match s with
    | [] => none
    | x :: xs => if nl || x != '\n' then k xs cap else none
  | Re.cls p, s, cap, k =>
    match s with
    | [] => none
    | x :: xs => if p x then k xs cap else none
  | Re.seq a b, s, cap, k => matchRe a s cap (fun s1 cap1 => matchRe b s1 cap1 k)
  | Re.opt a, s, cap, k =>
    match matchRe a s cap k with
    | some r => some r
    | none => k s cap
  | Re.lazyStar a, s, cap, k => lazyLoop (matchRe a) s.length s cap k
  | Re.plus a, s, cap, k =>
    matchRe a s cap (fun s1 cap1 => greedyLoop (matchRe a) s1.length s1 cap1 k)
  | Re.group a, s, cap, k =>
    matchRe a s cap (fun s1 _ => k s1 (some (s.take (s.length - s1.length))))

/-- The match of `r` anchored at the start of `s`, if there is one. -/
def matchAt (r : Re) (s : List Char) : Option M :=
  matchRe r s none (fun s1 cap => some (s1, cap))

/-- The runes that may occur in a name after `$` in a template:
`unicode.IsLetter(r) || unicode.IsDigit(r) || r == '_'`. On ASCII these are the
letters, the digits and the underscore; for the other runes the answer of the
library's tables, `unicode.IsLetter(r) || unicode.IsDigit(r)`, is taken from
`unicode`. -/
def isNameRune (unicode : Char → Bool) (c : Char) : Bool :=
  if c.toNat < 128 then
    ('a'.toNat ≤ c.toNat && c.toNat ≤ 'z'.toNat) ||
    ('A'.toNat ≤ c.toNat && c.toNat ≤ 'Z'.toNat) ||
    ('0'.toNat ≤ c.toNat && c.toNat ≤ '9'.toNat) || c == '_'
  else unicode c

/-- The number a name stands for in `extract`: its decimal value when it
consists of ASCII digits only and the value stays below `1e8` before each
digit is added, `none` (Go's -1) otherwise. -/
def parseNum : List Char → Nat → Option Nat
  | [], num => some num
  | c :: cs, num =>
    if c.toNat < '0'.toNat || '9'.toNat < c.toNat || 100000000 ≤ num then none
    else parseNum cs (num * 10 + (c.toNat - '0'.toNat))

/-- The function `extract` of Go's `regexp`: the name from a leading `name` or
`{name}` of `str` (the `$` is already removed), the number it stands for and
the rest of `str`; `none` when there is no well-formed name. -/
def extract (unicode : Char → Bool) (str : List Char) :
    Option (List Char × Option Nat × List Char) :=
  match str with
  | [] => none
  | c :: cs =>
    let brace := c == '{'
    let str1 := if brace then cs else c :: cs
    let name := str1.takeWhile (isNameRune unicode)
    let after := str1.dropWhile (isNameRune unicode)
    if name.length = 0 then none
    else
      let num :=
        if name.head? = some '0' && decide (1 < name.length) then none else parseNum name 0
      if brace then
        match after with
        | '}' :: rest => some (name, num, rest)
        | _ => none
      else some (name, num, after)

/-- The text a reference stands for, for a match with text `whole` and group 1
`cap`: `$0` is the match, `$1` is group 1, any other number and any name is
empty (the expressions of the repository have one group and no named group). -/
def groupText (whole : List Char) (cap : Option (List Char)) : Option Nat → List Char
  | some 0 => whole
  | some 1 => cap.getD []
  | _ => []

/-- The method `expand` of Go's `regexp`: the template with `$$` replaced by
`$`, a well-formed `$name` or `${name}` replaced by the text it stands for,
and any other `$` kept. The first argument bounds the number of steps; every
step consumes at least the `$`. -/
def expandAux (unicode : Char → Bool) (whole : List Char) (cap : Option (List Char)) :
    Nat → List Char → List Char
  | 0, template => template
  | n + 1, template =>
    let before := template.takeWhile (fun c => c != '$')
    match template.dropWhile (fun c => c != '$') with
    | [] => before
    | _ :: after =>
      match after with
      | '$' :: rest => before ++ '$' :: expandAux unicode whole cap n rest
      | _ =>
        match extract unicode after with
        | none => before ++ '$' :: expandAux unicode whole cap n after
        | some (_, num, rest) =>
          before ++ groupText whole cap num ++ expandAux unicode whole cap n rest

/-- Expansion of the template `repl` against a match. -/
def expand (unicode : Char → Bool) (whole : List Char) (cap : Option (List Char))
    (repl : List Char) : List Char :=
  expandAux unicode whole cap (repl.length + 1) repl

/-- The scan of `ReplaceAllString`: at each position take the leftmost match,
emit the expanded template and continue after the match; where nothing
matches, copy one character. The first numeric argument bounds the number of
steps; every step consumes at least one character. -/
def replaceAllAux (unicode : Char → Bool) (r : Re) (repl : List Char) : Nat → List Char → List Char
  | 0, s => s
  | n + 1, s =>
    match matchAt r s with
    | some (rest, cap) =>
      let whole := s.take (s.length - rest.length)
      if rest.length < s.length then
        expand unicode whole cap repl ++ replaceAllAux unicode r repl n rest
      else
        match s with
        | [] => expand unicode whole cap repl
        | c :: cs => expand unicode whole cap repl ++ c :: replaceAllAux unicode r repl n cs
    | none =>
      match s with
      | [] => []
      | c :: cs => c :: replaceAllAux unicode r repl n cs

/-- Embedding of `(*Regexp).ReplaceAllString(src, repl)`; inside `repl` the
`$` signs are interpreted as in `expand`. -/
def ReplaceAllString (unicode : Char → Bool) (r : Re) (src : String) (repl : String) : String :=
  String.mk (replaceAllAux unicode r repl.toList (src.length + 1) src.toList)

/-- The scan of `FindAllString(s, -1)`: the texts of the successive
non-overlapping leftmost matches. -/
def findAllAux (r : Re) : Nat → List Char → List String
  | 0, _ => []
  | n + 1, s =>
    match matchAt r s with
    | some (rest, _) =>
      if rest.length < s.length then
        String.mk (s.take (s.length - rest.length)) :: findAllAux r n rest
      else
        match s with
        | [] => [""]
        | _ :: cs => "" :: findAllAux r n cs
    | none =>
      match s with
      | [] => []
      | _ :: cs => findAllAux r n cs

/-- Embedding of `(*Regexp).FindAllString(s, -1)`. -/
def FindAllString (r : Re) (s : String) : List String :=
  findAllAux r (s.length + 1) s.toList

end regexp

/-! ## `internal/markdown/markdown.go` -/

namespace markdown

open regexp

/-- The character U+0060, the delimiter of inline code. -/
def graveAccent : Char := Char.ofNat 96

/-- `(?ms)\*\*(.*?)\*\*` -/
def boldRe : Re :=
  Re.cat [Re.char '*', Re.char '*', Re.group (Re.lazyStar (Re.any true)), Re.char '*', Re.char '*']

/-- `(?ms)\*(.*?)\*` -/
def italicRe : Re :=
  Re.cat [Re.char '*', Re.group (Re.lazyStar (Re.any true)), Re.char '*']

/-- `(?ms)__(.*?)__` -/
def underlineRe : Re :=
  Re.cat [Re.char '_', Re.char '_', Re.group (Re.lazyStar (Re.any true)), Re.char '_', Re.char '_']

/-- `(?ms)~~(.*?)~~` -/
def strikethroughRe : Re :=
  Re.cat [Re.char '~', Re.char '~', Re.group (Re.lazyStar (Re.any true)), Re.char '~', Re.char '~']

/-- The pattern `(?ms)` followed by a grave accent, the group
`([^G\n]+)` where `G` is the grave accent, and a closing grave accent. -/
def codeblockRe : Re :=
  Re.cat [Re.char graveAccent,
    Re.group (Re.plus (Re.cls (fun c => c != graveAccent && c != '\n'))),
    Re.char graveAccent]

/-- The class `[a-zA-Z0-9]`. -/
def isAlnum (c : Char) : Bool :=
  ('a'.toNat ≤ c.toNat && c.toNat ≤ 'z'.toNat) ||
  ('A'.toNat ≤ c.toNat && c.toNat ≤ 'Z'.toNat) ||
  ('0'.toNat ≤ c.toNat && c.toNat ≤ '9'.toNat)

/-- The class `[0-9]`. -/
def isDigit (c : Char) : Bool :=
  '0'.toNat ≤ c.toNat && c.toNat ≤ '9'.toNat

/-- `<(:[a-zA-Z0-9]+:)[0-9]+>` -/
def emoteRe : Re :=
  Re.cat [Re.char '<',
    Re.group (Re.cat [Re.char ':', Re.plus (Re.cls isAlnum), Re.char ':']),
    Re.plus (Re.cls isDigit), Re.char '>']

/-- Embedding of `markdown.Parse`: the six substitutions in source order, each
with the template of the source. `unicode` is the table
`unicode.IsLetter(r) || unicode.IsDigit(r)` of the Go library for the runes
outside ASCII, which decides where a name after `$` ends in a template. -/
def Parse (unicode : Char → Bool) (input : String) (emoteColor : String) : String :=
  let input := ReplaceAllString unicode boldRe input "[::b]$1[::B]"
  let input := ReplaceAllString unicode italicRe input "[::i]$1[::I]"
  let input := ReplaceAllString unicode underlineRe input "[::u]$1[::U]"
  let input := ReplaceAllString unicode strikethroughRe input "[::s]$1[::S]"
  let input := ReplaceAllString unicode codeblockRe input "[::r]$1[::R]"
  let input := ReplaceAllString unicode emoteRe input ("[" ++ emoteColor ++ "]$1[-:-:-]")
  input

end markdown

/-! ## `ui/messages.go` -/

namespace ui

/-- The fields of `discord.User` the handlers read. -/
structure User where
  ID : Nat
  Tag : String
deriving DecidableEq, Repr

/-- The fields of `discord.Attachment` the handlers read. -/
structure Attachment where
  Filename : String
  URL : String
deriving DecidableEq, Repr

/-- The fields of `discord.Message` the handlers read. `ReferencedMessage` is
the identifier of the referenced message (`m.ReferencedMessage.ID`), `none`
for a nil pointer; `Reference` is the raw reply reference sent back on a
reply. -/
structure Message where
  ID : Nat
  ChannelID : Nat
  Author : User
  Content : String
  Attachments : List Attachment
  ReferencedMessage : Option Nat
  Reference : Option Nat
deriving DecidableEq, Repr

/-- The fields of `discord.Channel` the handlers read. -/
structure Channel where
  ID : Nat
deriving DecidableEq, Repr

/-- The two capabilities `onInputCapture` asks for. -/
inductive Permission where
  | SendMessages : Permission
  | ManageMessages : Permission
deriving DecidableEq, Repr

/-- The chat library state as the handlers see it: `Cabinet c` is the result of
`State.Cabinet.Messages(c)` and `Messages c limit` the result of
`State.Messages(c, limit)` (`none` for a non-nil error, otherwise the messages
from latest to earliest); `Permissions c` is the set of capabilities the client
holds on channel `c`; `Me` is the client user's identifier. -/
structure State where
  Cabinet : Nat → Option (List Message)
  Messages : Nat → Nat → Option (List Message)
  Permissions : Nat → List Permission
  Me : Nat

/-- `Config.Keys`: the key names bound to the message actions. -/
structure Keys where
  SelectPreviousMessage : String
  SelectNextMessage : String
  SelectFirstMessage : String
  SelectLastMessage : String
  OpenMessageActionsList : String
  OpenExternalEditor : String
deriving DecidableEq, Repr

/-- The configuration fields read in `ui/messages.go`. -/
structure Config where
  Keys : Keys
  MessagesLimit : Nat
  AttachmentDownloadsDir : String
deriving DecidableEq, Repr

/-- Where the text view is scrolled to. -/
inductive Scroll where
  | unset : Scroll
  | toHighlight : Scroll
deriving DecidableEq, Repr

/-- The text view of the messages: the messages written to it, the
highlighted regions (a region is named by the identifier of the message it
renders) and the scroll target. -/
structure TextView where
  text : List Message
  highlights : List Nat
  scroll : Scroll
deriving DecidableEq, Repr

/-- `TextView.Highlight(regionIDs...)`: the given regions become the
highlighted regions. -/
def TextView.Highlight (t : TextView) (regionIDs : List Nat) : TextView :=
  { t with highlights := regionIDs }

/-- `TextView.GetHighlights()`. -/
def TextView.GetHighlights (t : TextView) : List Nat :=
  t.highlights

/-- `TextView.ScrollToHighlight()`. -/
def TextView.ScrollToHighlight (t : TextView) : TextView :=
  { t with scroll := Scroll.toHighlight }

/-- `TextView.Clear()`: removes the text; the highlights are kept. -/
def TextView.Clear (t : TextView) : TextView :=
  { t with text := [] }

/-- The input field: its text and the title of its frame. -/
structure InputField where
  text : String
  title : String
deriving DecidableEq, Repr

/-- The payload of `api.SendMessageData` the handler fills in. -/
structure SendMessageData where
  Content : String
  Reference : Option Nat
  RepliedUser : Bool
deriving DecidableEq, Repr

/-- Operations started with `go`: they run on their own and the handler does
not wait for them. -/
inductive Task where
  | deleteMessage (m : Message) : Task
  | downloadAttachment (as : List Attachment) : Task
  | openAttachment (as : List Attachment) : Task
  | openRun (link : String) : Task
  | SendMessage (channel : Nat) (content : String) : Task
  | SendMessageComplex (channel : Nat) (d : SendMessageData) : Task
deriving DecidableEq, Repr

/-- The callback of an entry of the action menu, with the values its closure
captured when the menu was built. -/
inductive Action where
  | reply (m : Message) : Action
  | mentionReply (m : Message) : Action
  | delete (m : Message) : Action
  | selectReply (ms : List Message) (ref : Nat) : Action
  | openLink (links : List String) : Action
  | downloadAttachment (m : Message) : Action
  | openAttachment (m : Message) : Action
  | copyContent (m : Message) : Action
  | copyID (m : Message) : Action
deriving DecidableEq, Repr

/-- An entry of the action menu: `AddItem(label, "", shortcut, callback)`. -/
structure Item where
  label : String
  shortcut : Char
  action : Action
deriving DecidableEq, Repr

/-- The primitive shown as the root of the application. -/
inductive Root where
  | MainFlex : Root
  | actionsList (items : List Item) : Root
deriving DecidableEq, Repr

/-- The primitive that has the focus. -/
inductive Focus where
  | MainFlex : Focus
  | MessagesTextView : Focus
  | MessageInputField : Focus
deriving DecidableEq, Repr

/-- The application state the handlers of `ui/messages.go` read and write.
`clipboard` is the content of the system clipboard, `none` when it cannot be
accessed; `editor` is what the external editor session yields, `none` when
`EDITOR` is unset or the temporary file cannot be made or read. -/
structure App where
  Config : Config
  State : State
  SelectedChannel : Option Channel
  SelectedMessage : Int
  MessagesTextView : TextView
  MessageInputField : InputField
  root : Root
  focus : Focus
  clipboard : Option String
  editor : Option String
  spawned : List Task

/-- Modelled from the spec: the helper `findMessageByID` is called in
`ui/messages.go` but is not among the sources. It is the explicit lookup of an
identifier in the owning buffer (§9): the index and the message of the first
entry with that identifier; when there is none, the index -1 that encodes
"none selected" (§3) and no message. -/
def findMessageByID (ms : List Message) (mID : Nat) : Int × Option Message :=
  match ms.findIdx? (fun m => m.ID == mID), ms.find? (fun m => m.ID == mID) with
  | some i, some m => ((i : Int), some m)
  | _, _ => (-1, none)

/-- Modelled from the spec: the helper `hasPermission` is called in
`ui/messages.go` but is not among the sources. It is the permission evaluator
of §6, `capability-check(channel, capability) → boolean`. -/
def hasPermission (s : State) (cID : Nat) (p : Permission) : Bool :=
  decide (p ∈ s.Permissions cID)

/-- Indexing `ms[i]` with a Go `int`: `none` is the index-out-of-range panic. -/
def index (ms : List Message) (i : Int) : Option Message :=
  if 0 ≤ i then ms[i.toNat]? else none

/-- The common tail of the four selection cases:
`Highlight(ms[SelectedMessage].ID.String()).ScrollToHighlight(); return nil`. -/
def highlightSelected (app : App) (ms : List Message) : Option (App × Option String) :=
  match index ms app.SelectedMessage with
  | none => none
  | some m =>
    some ({ app with MessagesTextView := (app.MessagesTextView.Highlight [m.ID]).ScrollToHighlight }, none)

/-- `linkRegex`, the pattern `https?://.+`. -/
def linkRegex : regexp.Re :=
  regexp.Re.cat [regexp.Re.lit "http", regexp.Re.opt (regexp.Re.char 's'), regexp.Re.lit "://",
    regexp.Re.plus (regexp.Re.any false)]

/-- The action menu built for message `m` by the `OpenMessageActionsList`
case, entry by entry in source order. -/
def buildActionsList (app : App) (ch : Channel) (ms : List Message) (m : Message) : List Item :=
  let l0 : List Item := []
  let l1 :=
    if hasPermission app.State ch.ID Permission.SendMessages then
      l0 ++ [⟨"Reply", 'r', Action.reply m⟩, ⟨"Mention Reply", 'R', Action.mentionReply m⟩]
    else l0
  let l2 :=
    if hasPermission app.State ch.ID Permission.ManageMessages then
      l1 ++ [⟨"Delete", 'd', Action.delete m⟩]
    else l1
  let l3 :=
    match m.ReferencedMessage with
    | some ref => l2 ++ [⟨"Select Reply", 'm', Action.selectReply ms ref⟩]
    | none => l2
  let links := regexp.FindAllString linkRegex m.Content
  let l4 :=
    if links.length ≠ 0 then l3 ++ [⟨"Open Link", 'l', Action.openLink links⟩] else l3
  let l5 :=
    if m.Attachments.length ≠ 0 then
      l4 ++ [⟨"Download Attachment", 'd', Action.downloadAttachment m⟩,
             ⟨"Open Attachment", 'o', Action.openAttachment m⟩]
    else l4
  l5 ++ [⟨"Copy Content", 'c', Action.copyContent m⟩, ⟨"Copy ID", 'i', Action.copyID m⟩]

/-- Embedding of `(*MessagesTextView).onInputCapture`. The argument `e` is
`e.Name()`; the second component of the result is the returned event (`none`
for `nil`). Region names are message identifiers, so `ParseSnowflake` of a
highlighted region is that identifier. -/
def MessagesTextView.onInputCapture (app : App) (e : String) : Option (App × Option String) :=
  match app.SelectedChannel with
  | none => some (app, none)
  | some ch =>
    match app.State.Cabinet ch.ID with
    | none => some (app, none)
    | some ms =>
      if ms.length = 0 then some (app, none)
      else if e = app.Config.Keys.SelectPreviousMessage then
        let sel : Int :=
          if app.MessagesTextView.GetHighlights.length = 0 then 0
          else if app.SelectedMessage = (ms.length : Int) - 1 then 0
          else app.SelectedMessage + 1
        highlightSelected { app with SelectedMessage := sel } ms
      else if e = app.Config.Keys.SelectNextMessage then
        let sel : Int :=
          if app.MessagesTextView.GetHighlights.length = 0 then 0
          else if app.SelectedMessage = 0 then (ms.length : Int) - 1
          else app.SelectedMessage - 1
        highlightSelected { app with SelectedMessage := sel } ms
      else if e = app.Config.Keys.SelectFirstMessage then
        highlightSelected { app with SelectedMessage := (ms.length : Int) - 1 } ms
      else if e = app.Config.Keys.SelectLastMessage then
        highlightSelected { app with SelectedMessage := 0 } ms
      else if e = app.Config.Keys.OpenMessageActionsList then
        match app.MessagesTextView.GetHighlights with
        | [] => some (app, none)
        | mID :: _ =>
          match (findMessageByID ms mID).2 with
          | none => some (app, none)
          | some m => some ({ app with root := Root.actionsList (buildActionsList app ch ms m) }, none)
      else if e = "Esc" then
        some ({ app with
                  SelectedMessage := -1
                  focus := Focus.MainFlex
                  MessagesTextView := (app.MessagesTextView.Clear).Highlight [] }, none)
      else some (app, some e)

/-- The callbacks of the menu entries, and what each does when its entry is
chosen. -/
def runAction (app : App) : Action → App
  | Action.reply m =>
    { app with
        MessageInputField := { app.MessageInputField with title := "Replying to " ++ m.Author.Tag }
        root := Root.MainFlex
        focus := Focus.MessageInputField }
  | Action.mentionReply m =>
    { app with
        MessageInputField := { app.MessageInputField with title := "[@] Replying to " ++ m.Author.Tag }
        root := Root.MainFlex
        focus := Focus.MessageInputField }
  | Action.delete m =>
    { app with
        spawned := app.spawned ++ [Task.deleteMessage m]
        root := Root.MainFlex
        focus := Focus.MessagesTextView }
  | Action.selectReply ms ref =>
    { app with
        SelectedMessage := (findMessageByID ms ref).1
        MessagesTextView := (app.MessagesTextView.Highlight [ref]).ScrollToHighlight
        root := Root.MainFlex
        focus := Focus.MessagesTextView }
  | Action.openLink links =>
    { app with spawned := app.spawned ++ links.map Task.openRun }
  | Action.downloadAttachment m =>
    { app with
        spawned := app.spawned ++ [Task.downloadAttachment m.Attachments]
        root := Root.MainFlex }
  | Action.openAttachment m =>
    { app with
        spawned := app.spawned ++ [Task.openAttachment m.Attachments]
        root := Root.MainFlex }
  | Action.copyContent m =>
    match app.clipboard with
    | none => app
    | some _ =>
      { app with
          clipboard := some m.Content
          root := Root.MainFlex
          focus := Focus.MessagesTextView }
  | Action.copyID m =>
    match app.clipboard with
    | none => app
    | some _ =>
      { app with
          clipboard := some (toString m.ID)
          root := Root.MainFlex
          focus := Focus.MessagesTextView }

/-- Choosing entry `i` of the action menu on display runs its callback;
nothing happens when no menu is displayed or it has no such entry. -/
def selectItem (app : App) (i : Nat) : App :=
  match app.root with
  | Root.MainFlex => app
  | Root.actionsList items =>
    match items[i]? with
    | none => app
    | some it => runAction app it.action

/-- The done function of the action menu (Escape closes it). -/
def actionsListDone (app : App) : App :=
  { app with root := Root.MainFlex, focus := Focus.MessagesTextView }

/-- `unicode.IsSpace`: the runes with Unicode's White Space property, which are
U+0009 to U+000D, U+0020, U+0085, U+00A0, U+1680, U+2000 to U+200A, U+2028,
U+2029, U+202F, U+205F and U+3000. -/
def isSpace (c : Char) : Bool :=
  (9 ≤ c.toNat && c.toNat ≤ 13) || c.toNat == 32 || c.toNat == 133 || c.toNat == 160 ||
  c.toNat == 5760 || (8192 ≤ c.toNat && c.toNat ≤ 8202) || c.toNat == 8232 ||
  c.toNat == 8233 || c.toNat == 8239 || c.toNat == 8287 || c.toNat == 12288

/-- `strings.TrimSpace`: the text without its leading and trailing white space. -/
def TrimSpace (s : String) : String :=
  String.mk ((s.toList.dropWhile isSpace).reverse.dropWhile isSpace).reverse

/-- Embedding of `(*MessageInput).onInputCapture`. -/
def MessageInput.onInputCapture (app : App) (e : String) : Option (App × Option String) :=
  if e = "Enter" then
    match app.SelectedChannel with
    | none => some (app, none)
    | some ch =>
      let t := TrimSpace app.MessageInputField.text
      if t = "" then some (app, none)
      else
        match app.State.Messages ch.ID app.Config.MessagesLimit with
        | none => some (app, none)
        | some ms =>
          match app.MessagesTextView.GetHighlights with
          | mID :: _ =>
            match (findMessageByID ms mID).2 with
            | none => none
            | some m =>
              let d : SendMessageData :=
                { Content := t
                  Reference := m.Reference
                  RepliedUser := "[@]".toList.isPrefixOf app.MessageInputField.title.toList }
              some ({ app with
                        spawned := app.spawned ++ [Task.SendMessageComplex m.ChannelID d]
                        SelectedMessage := -1
                        MessagesTextView := app.MessagesTextView.Highlight []
                        MessageInputField := { text := "", title := "" } }, none)
          | [] =>
            some ({ app with
                      spawned := app.spawned ++ [Task.SendMessage ch.ID t]
                      MessageInputField := { app.MessageInputField with text := "" } }, none)
  else if e = "Ctrl+V" then
    let text := app.MessageInputField.text ++ app.clipboard.getD ""
    some ({ app with MessageInputField := { app.MessageInputField with text := text } }, none)
  else if e = "Esc" then
    some ({ app with
              MessageInputField := { text := "", title := "" }
              focus := Focus.MainFlex
              SelectedMessage := -1
              MessagesTextView := app.MessagesTextView.Highlight [] }, none)
  else if e = app.Config.Keys.OpenExternalEditor then
    match app.editor with
    | none => some (app, none)
    | some b => some ({ app with MessageInputField := { app.MessageInputField with text := b } }, none)
  else some (app, some e)

/-- What can happen to the application between two moments at which the
selection is observed: a key delivered to the messages view, a key delivered
to the input field, the choice of a menu entry, the menu being closed, and the
chat library state being replaced by the event stream (messages arriving or
being deleted). -/
inductive Input where
  | messagesKey (name : String) : Input
  | inputKey (name : String) : Input
  | choose (i : Nat) : Input
  | closeMenu : Input
  | sync (st : State) : Input

/-- One input applied to the application; `none` is a runtime panic. -/
def step (app : App) : Input → Option App
  | Input.messagesKey name => (MessagesTextView.onInputCapture app name).map Prod.fst
  | Input.inputKey name => (MessageInput.onInputCapture app name).map Prod.fst
  | Input.choose i => some (selectItem app i)
  | Input.closeMenu => some (actionsListDone app)
  | Input.sync st => some { app with State := st }

/-- A sequence of inputs applied in order, stopping at the first panic. -/
def run (app : App) : List Input → Option App
  | [] => some app
  | i :: is =>
    match step app i with
    | none => none
    | some app1 => run app1 is

/-- The length of the open channel's buffer as the messages view reads it
(0 when no channel is open or the buffer cannot be read). -/
def bufferLen (app : App) : Nat :=
  match app.SelectedChannel with
  | none => 0
  | some ch =>
    match app.State.Cabinet ch.ID with
    | none => 0
    | some ms => ms.length

/-- The selected index is -1 or a valid index into the buffer as read now. -/
def SelectionValid (app : App) : Prop :=
  app.SelectedMessage = -1 ∨ (0 ≤ app.SelectedMessage ∧ app.SelectedMessage < (bufferLen app : Int))

instance (app : App) : Decidable (SelectionValid app) := by
  unfold SelectionValid; infer_instance

/-- `n` consecutive presses of the key bound to `SelectPreviousMessage`. -/
def pressPrevious : Nat → App → Option App
  | 0, app => some app
  | n + 1, app =>
    match MessagesTextView.onInputCapture app app.Config.Keys.SelectPreviousMessage with
    | none => none
    | some (app1, _) => pressPrevious n app1

/-- The handler consumes the key `e` and changes the application in exactly
this way: the selected index becomes `k`, the region of the message at
position `k` of `ms` becomes the one highlighted region, and the view is
scrolled to the highlight. -/
def LandsOn (app : App) (e : String) (ms : List Message) (k : Nat) : Prop :=
  ∃ m, ms[k]? = some m ∧
    MessagesTextView.onInputCapture app e =
      some ({ app with
                SelectedMessage := (k : Int)
                MessagesTextView :=
                  { text := app.MessagesTextView.text
                    highlights := [m.ID]
                    scroll := Scroll.toHighlight } }, none)

/-- A message with identifier `id` in channel 1, written by user `author`. -/
def sampleMessage (id author : Nat) : Message :=
  { ID := id, ChannelID := 1, Author := { ID := author, Tag := "user" }, Content := "hello",
    Attachments := [], ReferencedMessage := none, Reference := none }

/-- Key names used in the examples. -/
def sampleKeys : Keys :=
  { SelectPreviousMessage := "Up", SelectNextMessage := "Down", SelectFirstMessage := "Home",
    SelectLastMessage := "End", OpenMessageActionsList := "Rune[a]", OpenExternalEditor := "Ctrl+E" }

/-- A chat library state in which every channel has the buffer `ms` and the
client, user 9, holds the capabilities `perms`. -/
def sampleState (ms : List Message) (perms : List Permission) : State :=
  { Cabinet := fun _ => some ms, Messages := fun _ _ => some ms, Permissions := fun _ => perms, Me := 9 }

/-- An application with channel 1 open on the buffer `ms`, selected index
`sel` and highlighted regions `hl`. -/
def sampleApp (ms : List Message) (perms : List Permission) (sel : Int) (hl : List Nat) : App :=
  { Config := { Keys := sampleKeys, MessagesLimit := 50, AttachmentDownloadsDir := "" }
    State := sampleState ms perms
    SelectedChannel := some { ID := 1 }
    SelectedMessage := sel
    MessagesTextView := { text := ms, highlights := hl, scroll := Scroll.unset }
    MessageInputField := { text := "", title := "" }
    root := Root.MainFlex
    focus := Focus.MessagesTextView
    clipboard := some ""
    editor := none
    spawned := [] }

/-- The buffer of three messages 30, 20, 10, latest first, all by user 5. -/
def threeMessages : List Message :=
  [sampleMessage 30 5, sampleMessage 20 5, sampleMessage 10 5]

/-- The buffer of two messages 20, 10, latest first. -/
def twoMessages : List Message :=
  [sampleMessage 20 5, sampleMessage 10 5]

/-- An application with no channel open, selected index 3 and region 30
highlighted. -/
def closedApp : App :=
  { sampleApp threeMessages [] 3 [30] with SelectedChannel := none }

/-- Every "Select Reply" entry of the action menu on display captured a
buffer that is no longer than the buffer as read now. -/
def MenuCaptured (app : App) : Prop :=
  ∀ items, app.root = Root.actionsList items → ∀ it ∈ items, ∀ ms ref,
    it.action = Action.selectReply ms ref → ms.length ≤ bufferLen app

/-- Along the inputs, applied from `app`, no replacement of the chat library
state makes the open channel's buffer shorter. -/
def nonShrinking : App → List Input → Bool
  | _, [] => true
  | app, i :: is =>
    (match i with
     | Input.sync st => decide (bufferLen app ≤ bufferLen { app with State := st })
     | _ => true) &&
    (match step app i with
     | none => true
     | some a => nonShrinking a is)

/-- The labels of the action menu on display (none when no menu is displayed). -/
def menuLabels (app : App) : List String :=
  match app.root with
  | Root.MainFlex => []
  | Root.actionsList items => items.map (fun it => it.label)

/-- An application whose client, user 9, wrote the one message of the open
channel, has that message selected, and holds the send-messages capability
but not the manage-messages capability. -/
def authorApp : App :=
  sampleApp [sampleMessage 30 9] [Permission.SendMessages] 0 [30]

/-- The buffer 30, 20, 10 in which message 30 is a reply to message 10. -/
def replyMessages : List Message :=
  [{ sampleMessage 30 5 with ReferencedMessage := some 10 }, sampleMessage 20 5, sampleMessage 10 5]

/-- Select the latest message, open its action menu, a message 40 arrives,
choose the first entry of the menu ("Select Reply"). -/
def replyTrace : List Input :=
  [Input.messagesKey "End", Input.messagesKey "Rune[a]",
   Input.sync (sampleState (sampleMessage 40 5 :: replyMessages) []), Input.choose 0]

/-- Select the oldest of three messages (index 2), messages 20 and 10 are
deleted, then Enter is pressed in the empty input field. -/
def shrinkTrace : List Input :=
  [Input.messagesKey "Home", Input.sync (sampleState [sampleMessage 30 5] []), Input.inputKey "Enter"]

/-- Select the oldest of three messages (index 2), all messages are deleted,
then Esc is pressed in the messages view. -/
def emptyTrace : List Input :=
  [Input.messagesKey "Home", Input.sync (sampleState [] []), Input.messagesKey "Esc"]

/-- An application on the buffer 30, 20, 10 with nothing selected, whose
client holds the manage-messages capability. -/
def managerApp : App :=
  sampleApp threeMessages [Permission.ManageMessages] (-1) []

/-- Select the oldest message (index 2, message 10), open its action menu and
choose its first entry, which is "Delete" for `managerApp`. -/
def deleteTrace : List Input :=
  [Input.messagesKey "Home", Input.messagesKey "Rune[a]", Input.choose 0]

/-- The chat library state after message 10 is removed from the buffer
30, 20, 10. -/
def afterDelete : State :=
  sampleState [sampleMessage 30 5, sampleMessage 20 5] [Permission.ManageMessages]

/-- The buffer 30, 20, 10 in which message 30 is a reply to message 99, which
is outside the buffer. -/
def outsideReplyMessages : List Message :=
  [{ sampleMessage 30 5 with ReferencedMessage := some 99 }, sampleMessage 20 5, sampleMessage 10 5]

/-- Select the latest message (index 0, message 30), open its action menu and
choose its first entry, which is "Select Reply" for a client without
capabilities. -/
def selectReplyTrace : List Input :=
  [Input.messagesKey "End", Input.messagesKey "Rune[a]", Input.choose 0]

end ui

/-! ## `ui/app.go` -/

namespace guilds

/-- A node of the guilds tree (`tview.TreeNode`): its text, its reference
(the guild identifier, `none` for a nil reference) and its children. -/
inductive TreeNode where
  | mk (text : String) (reference : Option Nat) (children : List TreeNode) : TreeNode
deriving Repr

/-- `TreeNode.GetText()`. -/
def TreeNode.GetText : TreeNode → String
  | TreeNode.mk t _ _ => t

/-- `TreeNode.GetReference()`. -/
def TreeNode.GetReference : TreeNode → Option Nat
  | TreeNode.mk _ r _ => r

/-- `TreeNode.GetChildren()`. -/
def TreeNode.GetChildren : TreeNode → List TreeNode
  | TreeNode.mk _ _ cs => cs

/-- `tview.NewTreeNode(text)`. -/
def NewTreeNode (text : String) : TreeNode :=
  TreeNode.mk text none []

/-- `TreeNode.SetReference(reference)`. -/
def TreeNode.SetReference : TreeNode → Nat → TreeNode
  | TreeNode.mk t _ cs, r => TreeNode.mk t (some r) cs

/-- `TreeNode.AddChild(node)`: the node becomes the last child. -/
def TreeNode.AddChild : TreeNode → TreeNode → TreeNode
  | TreeNode.mk t r cs, node => TreeNode.mk t r (cs ++ [node])

/-- Adding a child to a node that is held by pointer and is the last child of
`root`: this is `folderNode.AddChild(guildNode)` after
`rootNode.AddChild(folderNode)`. -/
def TreeNode.addToLastChild : TreeNode → TreeNode → TreeNode
  | TreeNode.mk t r cs, node =>
    match cs.getLast? with
    | none => TreeNode.mk t r cs
    | some last => TreeNode.mk t r (cs.dropLast ++ [last.AddChild node])

mutual
/-- `TreeNode.Walk(callback)`: depth-first, pre-order traversal that calls the
callback on every node, this node included; when the callback returns `false`
the children of that node are not visited (the traversal goes on with the
nodes that remain). The callback's captured variables are the state `σ`; a
node is passed with its position, the list of child indices that leads to it
from the node the walk started at, which stands for the pointer. -/
def TreeNode.Walk {σ : Type} (callback : σ → TreeNode → List Nat → σ × Bool) :
    TreeNode → List Nat → σ → σ
  | TreeNode.mk t r cs, pos, s =>
    match callback s (TreeNode.mk t r cs) pos with
    | (s1, true) => walkChildren callback cs pos 0 s1
    | (s1, false) => s1
/-- The children of a node visited in order, each with its subtree. -/
def walkChildren {σ : Type} (callback : σ → TreeNode → List Nat → σ × Bool) :
    List TreeNode → List Nat → Nat → σ → σ
  | [], _, _, s => s
  | c :: cs, pos, i, s => walkChildren callback cs pos (i + 1) (TreeNode.Walk callback c (pos ++ [i]) s)
end

/-- `TreeNode.RemoveChild(node)`, the node being given by its position
relative to the receiver: a direct child (position of length one) is taken out
of the children; for any other node nothing happens. -/
def TreeNode.RemoveChild : TreeNode → List Nat → TreeNode
  | TreeNode.mk t r cs, [i] => TreeNode.mk t r (cs.eraseIdx i)
  | n, _ => n

/-- The fields of `discord.Guild` the handlers read. -/
structure Guild where
  ID : Nat
  Name : String
deriving DecidableEq, Repr

/-- An entry of `UserSettings.GuildFolders`. `ID` is 0 for guilds that are
in no folder; `Color` is `gf.Color.String()`, `none` for `discord.NullColor`. -/
structure GuildFolder where
  ID : Nat
  Name : String
  GuildIDs : List Nat
  Color : Option String
deriving DecidableEq, Repr

/-- The part of `gateway.ReadyEvent` the handler reads. -/
structure ReadyEvent where
  GuildFolders : List GuildFolder
deriving DecidableEq, Repr

/-- The application state the handlers of `ui/app.go` read and write: the root
of the guilds tree, the current node of the tree (by position), whether the
guilds tree has the focus, the number of redraws requested, and
`CabinetGuild`, which is `State.Cabinet.Guild` (`none` for a non-nil error). -/
structure App where
  root : TreeNode
  currentNode : Option (List Nat)
  focusGuildsTree : Bool
  draws : Nat
  CabinetGuild : Nat → Option Guild

/-- The node made for a guild: `NewTreeNode(g.Name)` with `SetReference(g.ID)`. -/
def guildNode (g : Guild) : TreeNode :=
  (NewTreeNode g.Name).SetReference g.ID

/-- The text of a folder node, as assembled in the string builder. -/
def folderText (gf : GuildFolder) : String :=
  let b := ""
  let b :=
    match gf.Color with
    | some c => b ++ "[" ++ c ++ "]"
    | none => b ++ "[#ED4245]"
  let b := if gf.Name ≠ "" then b ++ gf.Name else b ++ "Folder"
  b ++ "[-]"

/-- The inner loop of `onStateReady` for an entry without folder: one node
per guild, added to the root. `Except.error` is the early `return` on a guild
that does not resolve, with the tree as it is at that point. -/
def addGuildsToRoot (cab : Nat → Option Guild) : List Nat → TreeNode → Except TreeNode TreeNode
  | [], root => Except.ok root
  | gID :: rest, root =>
    match cab gID with
    | none => Except.error root
    | some g => addGuildsToRoot cab rest (root.AddChild (guildNode g))

/-- The inner loop of `onStateReady` for a folder: one node per guild, added
to the folder node, which is the last child of the root. -/
def addGuildsToFolder (cab : Nat → Option Guild) : List Nat → TreeNode → Except TreeNode TreeNode
  | [], root => Except.ok root
  | gID :: rest, root =>
    match cab gID with
    | none => Except.error root
    | some g => addGuildsToFolder cab rest (root.addToLastChild (guildNode g))

/-- The outer loop of `onStateReady` over the folder entries. -/
def addFolders (cab : Nat → Option Guild) : List GuildFolder → TreeNode → Except TreeNode TreeNode
  | [], root => Except.ok root
  | gf :: rest, root =>
    if gf.ID = 0 then
      match addGuildsToRoot cab gf.GuildIDs root with
      | Except.error r => Except.error r
      | Except.ok r => addFolders cab rest r
    else
      match addGuildsToFolder cab gf.GuildIDs (root.AddChild (NewTreeNode (folderText gf))) with
      | Except.error r => Except.error r
      | Except.ok r => addFolders cab rest r

/-- Embedding of `(*App).onStateReady`. -/
def App.onStateReady (app : App) (r : ReadyEvent) : App :=
  match addFolders app.CabinetGuild r.GuildFolders app.root with
  | Except.error root => { app with root := root }
  | Except.ok root => { app with root := root, currentNode := some [], focusGuildsTree := true }

/-- Embedding of `(*App).onStateGuildCreate`; the event carries the guild. -/
def App.onStateGuildCreate (app : App) (g : Guild) : App :=
  let guildNode := (NewTreeNode g.Name).SetReference g.ID
  { app with root := app.root.AddChild guildNode, draws := app.draws + 1 }

/-- The callback handed to `Walk` in `onStateGuildDelete`: on a node whose
reference is the guild identifier it stores the node and returns `false`,
otherwise it returns `true`. -/
def deleteCallback (gID : Nat) (parentNode : Option (List Nat)) (node : TreeNode) (pos : List Nat) :
    Option (List Nat) × Bool :=
  if node.GetReference = some gID then (some pos, false) else (parentNode, true)

/-- Embedding of `(*App).onStateGuildDelete`; `gID` is the event's `g.ID`. -/
def App.onStateGuildDelete (app : App) (gID : Nat) : App :=
  let parentNode := app.root.Walk (deleteCallback gID) [] none
  let root :=
    match parentNode with
    | some pos => app.root.RemoveChild pos
    | none => app.root
  { app with root := root, draws := app.draws + 1 }

mutual
/-- The number of nodes of a tree whose reference is the guild `gID`. -/
def TreeNode.countRef (gID : Nat) : TreeNode → Nat
  | TreeNode.mk _ r cs => (if r = some gID then 1 else 0) + countRefList gID cs
/-- The number of nodes of a forest whose reference is the guild `gID`. -/
def countRefList (gID : Nat) : List TreeNode → Nat
  | [] => 0
  | c :: cs => TreeNode.countRef gID c + countRefList gID cs
end

/-- The nodes the ready payload asks for, in the words of the specification:
one top-level node per folder entry with a non-zero folder id, holding one
child per guild of the folder, and one top-level node per guild of an entry
whose folder id is 0, all in payload order; a guild node carries the guild's
name and, as its reference, the guild's identifier. `G` resolves a guild
identifier to its guild. -/
def readyNodes (G : Nat → Guild) (folders : List GuildFolder) : List TreeNode :=
  folders.flatMap fun gf =>
    if gf.ID = 0 then gf.GuildIDs.map (fun gID => TreeNode.mk (G gID).Name (some (G gID).ID) [])
    else [TreeNode.mk (folderText gf) none
            (gf.GuildIDs.map (fun gID => TreeNode.mk (G gID).Name (some (G gID).ID) []))]

/-- An application with an empty guilds tree, in which every guild identifier
resolves to a guild of that identifier named "guild". -/
def emptyApp : App :=
  { root := NewTreeNode "", currentNode := none, focusGuildsTree := false, draws := 0,
    CabinetGuild := fun gID => some { ID := gID, Name := "guild" } }

/-- A ready payload with a folder 5 holding the guilds 7 and 8, followed by the
guild 9 outside any folder. -/
def folderPayload : ReadyEvent :=
  { GuildFolders := [{ ID := 5, Name := "", GuildIDs := [7, 8], Color := none },
                     { ID := 0, Name := "", GuildIDs := [9], Color := none }] }

end guilds

/-! ## `internal/plugin/plugin.go` -/

namespace plugin

/-- `extism.WasmFile`: the name and the path of a module file. -/
structure WasmFile where
  Name : String
  Path : String
deriving DecidableEq, Repr

/-- `extism.Manifest`: the module files of a plugin. -/
structure Manifest where
  Wasm : List WasmFile
deriving DecidableEq, Repr

/-- A loaded module instance (`*extism.Plugin`), known by the manifest it was
made from and a handle. -/
structure Plugin where
  manifest : Manifest
  handle : Nat
deriving DecidableEq, Repr

/-- The three outcomes of `os.ReadDir` that `Load` tells apart: an error for
which `os.IsNotExist` holds, any other error, and the names of the entries in
the order `ReadDir` returns them. -/
inductive ReadDirResult where
  | notExist : ReadDirResult
  | failed (err : String) : ReadDirResult
  | entries (names : List String) : ReadDirResult
deriving DecidableEq, Repr

/-- What `Load` reads from outside: `ConfigDirPath` is
`constants.ConfigDirPath`, `ReadDir` is `os.ReadDir` and `NewPlugin` is
`extism.NewPlugin` applied to a manifest (`Except.error` for a non-nil
error). -/
structure Env where
  ConfigDirPath : String
  ReadDir : String → ReadDirResult
  NewPlugin : Manifest → Except String Plugin

/-- The process-wide state `Load` writes: the package variable `plugins` and
the lines sent to `log.Println`. -/
structure Registry where
  plugins : List Plugin
  log : List String
deriving DecidableEq, Repr

/-- `filepath.Join` of a directory and a name. -/
def Join (dir name : String) : String :=
  dir ++ "/" ++ name

/-- The manifest `Load` builds for the entry `name` of the directory `path`. -/
def manifestOf (path name : String) : Manifest :=
  { Wasm := [{ Name := name, Path := Join path name }] }

/-- The loop of `Load` over the entries: an entry whose instantiation fails is
logged and skipped, an instance is appended to `plugins`. -/
def loadEntries (env : Env) (path : String) : List String → Registry → Registry
  | [], reg => reg
  | name :: rest, reg =>
    match env.NewPlugin (manifestOf path name) with
    | Except.error err => loadEntries env path rest { reg with log := reg.log ++ [err] }
    | Except.ok plugin => loadEntries env path rest { reg with plugins := reg.plugins ++ [plugin] }

/-- Embedding of `plugin.Load`: the returned error (`none` for `nil`) and the
registry afterwards. -/
def Load (env : Env) (reg : Registry) : Option String × Registry :=
  let path := Join env.ConfigDirPath "plugins"
  match env.ReadDir path with
  | ReadDirResult.notExist => (none, reg)
  | ReadDirResult.failed err => (some err, reg)
  | ReadDirResult.entries names => (none, loadEntries env path names reg)

/-- The instances of the entries that instantiate, in discovery order, in the
words of the specification. -/
def instantiated (env : Env) (path : String) (names : List String) : List Plugin :=
  names.filterMap fun name =>
    match env.NewPlugin (manifestOf path name) with
    | Except.error _ => none
    | Except.ok plugin => some plugin

/-- An environment whose extension directory holds `good.wasm`, which
instantiates, and `bad.wasm`, which does not. -/
def sampleEnv : Env :=
  { ConfigDirPath := "/home/user/.config/discordo"
    ReadDir := fun path =>
      if path = "/home/user/.config/discordo/plugins" then
        ReadDirResult.entries ["bad.wasm", "good.wasm"]
      else ReadDirResult.notExist
    NewPlugin := fun m =>
      if m = manifestOf "/home/user/.config/discordo/plugins" "good.wasm" then
        Except.ok { manifest := m, handle := 1 }
      else Except.error "invalid module" }

/-- An environment without extension directory. -/
def absentEnv : Env :=
  { sampleEnv with ReadDir := fun _ => ReadDirResult.notExist }

end plugin

/-! ## Theorems -/

namespace ui

theorem index_eq_some_of_lt (ms : List Message) (j : Int) (h0 : 0 ≤ j) (h1 : j < (ms.length : Int)) :
    ∃ m, index ms j = some m := by
  have hlt : j.toNat < ms.length := by omega
  exact ⟨ms[j.toNat], by simp [index, h0, List.getElem?_eq_getElem hlt]⟩

theorem index_natCast (ms : List Message) (k : Nat) : index ms (k : Int) = ms[k]? := by
  simp [index]

theorem landsOn_of_highlightSelected (app : App) (e : String) (ms : List Message) (k : Nat)
    (h1 : k < ms.length)
    (h : MessagesTextView.onInputCapture app e =
      highlightSelected { app with SelectedMessage := (k : Int) } ms) :
    LandsOn app e ms k := by
  have hk : ms[k]? = some ms[k] := List.getElem?_eq_getElem h1
  refine ⟨ms[k], hk, ?_⟩
  rw [h]
  simp only [highlightSelected, index_natCast, hk]
  rfl

theorem onInputCapture_previous (app : App) (ch : Channel) (ms : List Message)
    (hch : app.SelectedChannel = some ch) (hms : app.State.Cabinet ch.ID = some ms)
    (hN : 1 ≤ ms.length) :
    MessagesTextView.onInputCapture app app.Config.Keys.SelectPreviousMessage =
      highlightSelected
        { app with
            SelectedMessage :=
              if app.MessagesTextView.GetHighlights.length = 0 then 0
              else if app.SelectedMessage = (ms.length : Int) - 1 then 0
              else app.SelectedMessage + 1 } ms := by
  have hne : ms.length ≠ 0 := by omega
  simp [MessagesTextView.onInputCapture, hch, hms, hne]

theorem onInputCapture_next (app : App) (ch : Channel) (ms : List Message)
    (hch : app.SelectedChannel = some ch) (hms : app.State.Cabinet ch.ID = some ms)
    (hN : 1 ≤ ms.length)
    (hkey : app.Config.Keys.SelectNextMessage ≠ app.Config.Keys.SelectPreviousMessage) :
    MessagesTextView.onInputCapture app app.Config.Keys.SelectNextMessage =
      highlightSelected
        { app with
            SelectedMessage :=
              if app.MessagesTextView.GetHighlights.length = 0 then 0
              else if app.SelectedMessage = 0 then (ms.length : Int) - 1
              else app.SelectedMessage - 1 } ms := by
  have hne : ms.length ≠ 0 := by omega
  simp [MessagesTextView.onInputCapture, hch, hms, hne, hkey]

/-- C1, the claim as stated, fails. A client with the manage-messages
capability selects the oldest of three messages (index 2, message 10) and
chooses "Delete" for it: the deletion is started, the selected index stays 2
and region 10 stays highlighted. Once message 10 is gone the buffer has length
2, the selected index 2 is neither "nothing selected" nor `N-1 = 1`, and the
key bound to `SelectPreviousMessage` does not select index 3 and highlight a
message: the handler raises the index to 3 and panics on `ms[3]`. -/
theorem selectPrevious_counterexample :
    (run managerApp deleteTrace).map
        (fun a => (a.SelectedMessage, a.MessagesTextView.GetHighlights, a.spawned)) =
      some (2, [10], [Task.deleteMessage (sampleMessage 10 5)]) ∧
    (MessagesTextView.onInputCapture
        (sampleApp [sampleMessage 30 5, sampleMessage 20 5] [Permission.ManageMessages] 2 [10])
        "Up").isNone = true ∧
    (run managerApp (deleteTrace ++ [Input.sync afterDelete, Input.messagesKey "Up"])).isNone =
      true := by
  decide

/-- C1, amended. With a channel open on a buffer of `N ≥ 1` messages, the key
bound to `SelectPreviousMessage` is consumed and moves the selection to index
0 when no region is highlighted, to index 0 when a region is highlighted and
the selected index is `N-1`, and, when a region is highlighted, from the
selected index `i` to `i+1` whenever `i+1` is an index of the buffer
(`i+1 = k` with `0 ≤ k < N`, so every `i` with `-1 ≤ i < N-1`). In each case
the region of the message at the new position of the buffer becomes the one
highlighted region, the view is scrolled to it, and nothing else changes. -/
theorem selectPrevious_spec (app : App) (ch : Channel) (ms : List Message)
    (hch : app.SelectedChannel = some ch) (hms : app.State.Cabinet ch.ID = some ms)
    (hN : 1 ≤ ms.length) :
    (app.MessagesTextView.GetHighlights = [] →
      LandsOn app app.Config.Keys.SelectPreviousMessage ms 0) ∧
    (app.MessagesTextView.GetHighlights ≠ [] → app.SelectedMessage = (ms.length : Int) - 1 →
      LandsOn app app.Config.Keys.SelectPreviousMessage ms 0) ∧
    (∀ k : Nat, app.MessagesTextView.GetHighlights ≠ [] → app.SelectedMessage + 1 = (k : Int) →
      k < ms.length → LandsOn app app.Config.Keys.SelectPreviousMessage ms k) := by
  have key := onInputCapture_previous app ch ms hch hms hN
  refine ⟨fun h => ?_, fun h hsel => ?_, fun k h hsel hk => ?_⟩
  · apply landsOn_of_highlightSelected app _ ms 0 (by omega)
    rw [key]; simp [h]
  · apply landsOn_of_highlightSelected app _ ms 0 (by omega)
    rw [key]; simp [hsel]
  · apply landsOn_of_highlightSelected app _ ms k hk
    rw [key]
    have hl : app.MessagesTextView.GetHighlights.length ≠ 0 := by
      simpa [List.length_eq_zero] using h
    have hne : app.SelectedMessage ≠ (ms.length : Int) - 1 := by omega
    simp [hl, hne, hsel]

/-- Witness of the amended C1 on the buffer 30, 20, 10 with index 0 selected:
the selection moves to index 1, message 20. -/
theorem selectPrevious_spec_witness :
    LandsOn (sampleApp threeMessages [] 0 [30]) "Up" threeMessages 1 :=
  (selectPrevious_spec (sampleApp threeMessages [] 0 [30]) { ID := 1 } threeMessages rfl rfl
      (by decide)).2.2 1 (by decide) (by decide) (by decide)

/-- C2, the claim as stated, fails. On the buffer 30, 20, 10, whose message 30
replies to a message 99 outside the buffer, selecting the latest message and
choosing "Select Reply" leaves the selected index -1 with region 99
highlighted; the key bound to `SelectNextMessage` then selects neither index 0
nor `i-1`: the handler lowers the index to -2 and panics on `ms[-2]`. Also,
with index 2 selected and region 10 highlighted on a buffer that has shrunk to
one message, the handler lowers the index to 1 and panics on `ms[1]`. -/
theorem selectNext_counterexample :
    (run (sampleApp outsideReplyMessages [] (-1) []) selectReplyTrace).map
        (fun a => (a.SelectedMessage, a.MessagesTextView.GetHighlights)) = some (-1, [99]) ∧
    (run (sampleApp outsideReplyMessages [] (-1) [])
        (selectReplyTrace ++ [Input.messagesKey "Down"])).isNone = true ∧
    (MessagesTextView.onInputCapture (sampleApp [sampleMessage 30 5] [] 2 [10]) "Down").isNone =
      true := by
  decide

/-- C2, amended. With a channel open on a buffer of `N ≥ 1` messages, the key
bound to `SelectNextMessage` (a key other than the one bound to
`SelectPreviousMessage`, whose case comes first in the switch) is consumed and
moves the selection to index 0 when no region is highlighted, to index `N-1`
when a region is highlighted and the selected index is 0, and, when a region
is highlighted, from the selected index `i` to `i-1` whenever `i-1` is an
index of the buffer (`i = k+1` with `0 ≤ k < N`, so every `i` with
`1 ≤ i ≤ N`). In each case the region of the message at the new position of
the buffer becomes the one highlighted region, the view is scrolled to it,
and nothing else changes. -/
theorem selectNext_spec (app : App) (ch : Channel) (ms : List Message)
    (hch : app.SelectedChannel = some ch) (hms : app.State.Cabinet ch.ID = some ms)
    (hN : 1 ≤ ms.length)
    (hkey : app.Config.Keys.SelectNextMessage ≠ app.Config.Keys.SelectPreviousMessage) :
    (app.MessagesTextView.GetHighlights = [] →
      LandsOn app app.Config.Keys.SelectNextMessage ms 0) ∧
    (app.MessagesTextView.GetHighlights ≠ [] → app.SelectedMessage = 0 →
      LandsOn app app.Config.Keys.SelectNextMessage ms (ms.length - 1)) ∧
    (∀ k : Nat, app.MessagesTextView.GetHighlights ≠ [] → app.SelectedMessage = (k : Int) + 1 →
      k < ms.length → LandsOn app app.Config.Keys.SelectNextMessage ms k) := by
  have key := onInputCapture_next app ch ms hch hms hN hkey
  refine ⟨fun h => ?_, fun h hsel => ?_, fun k h hsel hk => ?_⟩
  · apply landsOn_of_highlightSelected app _ ms 0 (by omega)
    rw [key]; simp [h]
  · apply landsOn_of_highlightSelected app _ ms (ms.length - 1) (by omega)
    rw [key]
    have hl : app.MessagesTextView.GetHighlights.length ≠ 0 := by
      simpa [List.length_eq_zero] using h
    have hcast : ((ms.length - 1 : Nat) : Int) = (ms.length : Int) - 1 := by omega
    simp [hl, hsel, hcast]
  · apply landsOn_of_highlightSelected app _ ms k hk
    rw [key]
    have hl : app.MessagesTextView.GetHighlights.length ≠ 0 := by
      simpa [List.length_eq_zero] using h
    have hne : ¬ ((k : Int) + 1 = 0) := by omega
    simp [hl, hne, hsel]

/-- Witness of the amended C2 on the buffer 30, 20, 10: from index 0 the
selection wraps to index 2, message 10. -/
theorem selectNext_spec_witness :
    LandsOn (sampleApp threeMessages [] 0 [30]) "Down" threeMessages 2 :=
  (selectNext_spec (sampleApp threeMessages [] 0 [30]) { ID := 1 } threeMessages rfl rfl
      (by decide) (by decide)).2.1 (by decide) rfl

theorem previous_step (app : App) (ch : Channel) (ms : List Message)
    (hch : app.SelectedChannel = some ch) (hms : app.State.Cabinet ch.ID = some ms)
    (hN : 1 ≤ ms.length) (j : Int)
    (hj : (if app.MessagesTextView.GetHighlights.length = 0 then 0
           else if app.SelectedMessage = (ms.length : Int) - 1 then 0
           else app.SelectedMessage + 1) = j)
    (h0 : 0 ≤ j) (h1 : j < (ms.length : Int)) :
    ∃ a, MessagesTextView.onInputCapture app app.Config.Keys.SelectPreviousMessage = some (a, none) ∧
      a.SelectedMessage = j ∧ a.MessagesTextView.GetHighlights ≠ [] ∧
      a.SelectedChannel = app.SelectedChannel ∧ a.State = app.State ∧ a.Config = app.Config := by
  obtain ⟨m, hm⟩ := index_eq_some_of_lt ms j h0 h1
  refine ⟨{ app with
              SelectedMessage := j
              MessagesTextView := (app.MessagesTextView.Highlight [m.ID]).ScrollToHighlight },
    ?_, rfl, ?_, rfl, rfl, rfl⟩
  · rw [onInputCapture_previous app ch ms hch hms hN, hj]
    simp only [highlightSelected, hm]
  · simp [TextView.GetHighlights, TextView.Highlight, TextView.ScrollToHighlight]

theorem pressPrevious_succ (n : Nat) (app : App) :
    pressPrevious (n + 1) app =
      match pressPrevious n app with
      | none => none
      | some a => pressPrevious 1 a := by
  induction n generalizing app with
  | zero => simp [pressPrevious]
  | succ n ih =>
    rw [pressPrevious]
    cases h : MessagesTextView.onInputCapture app app.Config.Keys.SelectPreviousMessage with
    | none => simp [pressPrevious, h]
    | some r =>
      obtain ⟨a, e⟩ := r
      simp only [ih a]
      conv_rhs => rw [pressPrevious]
      simp only [h]

theorem pressPrevious_one (app a : App)
    (h : MessagesTextView.onInputCapture app app.Config.Keys.SelectPreviousMessage = some (a, none)) :
    pressPrevious 1 app = some a := by
  simp only [pressPrevious, h]

theorem pressPrevious_prefix (app : App) (ch : Channel) (ms : List Message)
    (hch : app.SelectedChannel = some ch) (hms : app.State.Cabinet ch.ID = some ms)
    (hhl : app.MessagesTextView.GetHighlights = []) (k : Nat) (hk : k + 1 ≤ ms.length) :
    ∃ a, pressPrevious (k + 1) app = some a ∧ a.SelectedMessage = (k : Int) ∧
      a.MessagesTextView.GetHighlights ≠ [] ∧ a.SelectedChannel = some ch ∧
      a.State = app.State ∧ a.Config = app.Config := by
  induction k with
  | zero =>
    obtain ⟨a, ha, hsel, hl, hach, hst, hcfg⟩ :=
      previous_step app ch ms hch hms (by omega) 0 (by simp [hhl]) (le_refl 0) (by omega)
    exact ⟨a, pressPrevious_one app a ha, by simpa using hsel, hl, hach.trans hch, hst, hcfg⟩
  | succ k ih =>
    obtain ⟨a, ha, hsel, hl, hach, hst, hcfg⟩ := ih (by omega)
    have hl0 : a.MessagesTextView.GetHighlights.length ≠ 0 := by
      simpa [List.length_eq_zero] using hl
    have hams : a.State.Cabinet ch.ID = some ms := by rw [hst]; exact hms
    obtain ⟨b, hb, hbsel, hbl, hbch, hbst, hbcfg⟩ :=
      previous_step a ch ms hach hams (by omega) ((k : Int) + 1)
        (by rw [if_neg hl0, if_neg (by omega), hsel]) (by omega) (by omega)
    refine ⟨b, ?_, by simpa using hbsel, hbl, hbch.trans hach, hbst.trans hst, hbcfg.trans hcfg⟩
    rw [pressPrevious_succ, ha]
    exact pressPrevious_one a b hb

/-- C4, the claim as stated, fails: on a buffer of 2 messages, 2 presses of
the key bound to `SelectPreviousMessage` from the unselected state end at
index 1, not at index 0. -/
theorem selectPrevious_cycle_counterexample :
    (pressPrevious 2 (sampleApp twoMessages [] (-1) [])).map (fun a => a.SelectedMessage) = some 1 ∧
    (pressPrevious 2 (sampleApp twoMessages [] (-1) [])).map (fun a => a.SelectedMessage) ≠ some 0 := by
  decide

/-- C4, amended. With a channel open on a buffer of fixed length `N ≥ 1` and
no region highlighted, `N` consecutive presses of the key bound to
`SelectPreviousMessage` end at index `N-1` (the oldest message) and `N+1`
presses end at index 0: the cycle has length `N` and starts after the first
press. -/
theorem selectPrevious_cycle (app : App) (ch : Channel) (ms : List Message)
    (hch : app.SelectedChannel = some ch) (hms : app.State.Cabinet ch.ID = some ms)
    (hN : 1 ≤ ms.length) (hhl : app.MessagesTextView.GetHighlights = []) :
    (∃ a, pressPrevious ms.length app = some a ∧ a.SelectedMessage = (ms.length : Int) - 1) ∧
    (∃ b, pressPrevious (ms.length + 1) app = some b ∧ b.SelectedMessage = 0) := by
  obtain ⟨a, ha, hsel, hl, hach, hst, hcfg⟩ :=
    pressPrevious_prefix app ch ms hch hms hhl (ms.length - 1) (by omega)
  have hlen : ms.length - 1 + 1 = ms.length := by omega
  rw [hlen] at ha
  have hselN : a.SelectedMessage = (ms.length : Int) - 1 := by rw [hsel]; omega
  refine ⟨⟨a, ha, hselN⟩, ?_⟩
  have hl0 : a.MessagesTextView.GetHighlights.length ≠ 0 := by
    simpa [List.length_eq_zero] using hl
  have hams : a.State.Cabinet ch.ID = some ms := by rw [hst]; exact hms
  obtain ⟨b, hb, hbsel, _⟩ := previous_step a ch ms hach hams hN 0
    (by rw [if_neg hl0, if_pos hselN]) (le_refl 0) (by omega)
  refine ⟨b, ?_, hbsel⟩
  rw [pressPrevious_succ, ha]
  exact pressPrevious_one a b hb

/-- Witness of the amended C4 on the buffer 30, 20, 10. -/
theorem selectPrevious_cycle_witness :
    (∃ a, pressPrevious 3 (sampleApp threeMessages [] (-1) []) = some a ∧ a.SelectedMessage = 2) ∧
    (∃ b, pressPrevious 4 (sampleApp threeMessages [] (-1) []) = some b ∧ b.SelectedMessage = 0) :=
  selectPrevious_cycle (sampleApp threeMessages [] (-1) []) { ID := 1 } threeMessages rfl rfl
    (by decide) rfl

/-- C10, the claim as stated, fails: with no channel open, and also with a
channel open on an empty buffer, the handler returns before the switch, and
after Esc the selected index is still 3 and region 30 is still highlighted. -/
theorem esc_counterexample :
    (MessagesTextView.onInputCapture closedApp "Esc").map
        (fun r => (r.1.SelectedMessage, r.1.MessagesTextView.GetHighlights)) = some (3, [30]) ∧
    (MessagesTextView.onInputCapture (sampleApp [] [] 3 [30]) "Esc").map
        (fun r => (r.1.SelectedMessage, r.1.MessagesTextView.GetHighlights)) = some (3, [30]) := by
  decide

/-- C10, amended. When a channel is open and its buffer is read with at least
one message, and Esc is not the key bound to one of the five message actions
(whose cases come first in the switch), Esc is consumed, the selected index
becomes -1 and no region is highlighted. When no channel is open, the buffer
cannot be read or it is empty, Esc is consumed and the application, selected
index and highlights included, is left as it was. -/
theorem esc_spec (app : App) :
    (∀ ch ms, app.SelectedChannel = some ch → app.State.Cabinet ch.ID = some ms → 1 ≤ ms.length →
      "Esc" ≠ app.Config.Keys.SelectPreviousMessage → "Esc" ≠ app.Config.Keys.SelectNextMessage →
      "Esc" ≠ app.Config.Keys.SelectFirstMessage → "Esc" ≠ app.Config.Keys.SelectLastMessage →
      "Esc" ≠ app.Config.Keys.OpenMessageActionsList →
      ∃ app1, MessagesTextView.onInputCapture app "Esc" = some (app1, none) ∧
        app1.SelectedMessage = -1 ∧ app1.MessagesTextView.GetHighlights = []) ∧
    (bufferLen app = 0 → MessagesTextView.onInputCapture app "Esc" = some (app, none)) := by
  constructor
  · intro ch ms hch hms hN h1 h2 h3 h4 h5
    have hne : ms.length ≠ 0 := by omega
    refine ⟨{ app with
                SelectedMessage := -1
                focus := Focus.MainFlex
                MessagesTextView := (app.MessagesTextView.Clear).Highlight [] }, ?_, rfl, rfl⟩
    simp [MessagesTextView.onInputCapture, hch, hms, hne, h1, h2, h3, h4, h5]
  · intro h
    unfold bufferLen at h
    cases hch : app.SelectedChannel with
    | none => simp [MessagesTextView.onInputCapture, hch]
    | some ch =>
      simp only [hch] at h
      cases hms : app.State.Cabinet ch.ID with
      | none => simp [MessagesTextView.onInputCapture, hch, hms]
      | some ms =>
        simp only [hms] at h
        simp [MessagesTextView.onInputCapture, hch, hms, h]

/-- Witness of the amended C10 on the buffer 30, 20, 10 with index 1 selected. -/
theorem esc_spec_witness :
    ∃ app1, MessagesTextView.onInputCapture (sampleApp threeMessages [] 1 [20]) "Esc" = some (app1, none) ∧
      app1.SelectedMessage = -1 ∧ app1.MessagesTextView.GetHighlights = [] :=
  (esc_spec (sampleApp threeMessages [] 1 [20])).1 { ID := 1 } threeMessages rfl rfl (by decide)
    (by decide) (by decide) (by decide) (by decide) (by decide)

theorem findMessageByID_range (ms : List Message) (mID : Nat) :
    (findMessageByID ms mID).1 = -1 ∨
      (0 ≤ (findMessageByID ms mID).1 ∧ (findMessageByID ms mID).1 < (ms.length : Int)) := by
  unfold findMessageByID
  cases hi : ms.findIdx? (fun m => m.ID == mID) with
  | none => left; rfl
  | some i =>
    cases hf : ms.find? (fun m => m.ID == mID) with
    | none => left; rfl
    | some m =>
      right
      obtain ⟨hlt, _⟩ := List.findIdx?_eq_some_iff_getElem.mp hi
      simp only
      omega

theorem bufferLen_congr (a b : App) (hch : a.SelectedChannel = b.SelectedChannel)
    (hst : a.State = b.State) : bufferLen a = bufferLen b := by
  unfold bufferLen
  rw [hch, hst]

theorem highlightSelected_some (app a : App) (ms : List Message) (r : Option String)
    (h : highlightSelected app ms = some (a, r)) :
    0 ≤ app.SelectedMessage ∧ app.SelectedMessage < (ms.length : Int) ∧
      a.SelectedMessage = app.SelectedMessage ∧ a.root = app.root ∧
      a.SelectedChannel = app.SelectedChannel ∧ a.State = app.State := by
  unfold highlightSelected at h
  cases hm : index ms app.SelectedMessage with
  | none => simp [hm] at h
  | some m =>
    simp only [hm, Option.some.injEq, Prod.mk.injEq] at h
    obtain ⟨rfl, _⟩ := h
    unfold index at hm
    split at hm
    · rename_i h0
      have := List.getElem?_eq_some_iff.mp hm
      obtain ⟨hlt, _⟩ := this
      refine ⟨h0, by omega, rfl, rfl, rfl, rfl⟩
    · simp at hm

theorem buildActionsList_selectReply (app : App) (ch : Channel) (ms : List Message) (m : Message)
    (it : Item) (hit : it ∈ buildActionsList app ch ms m) (ms1 : List Message) (ref : Nat)
    (h : it.action = Action.selectReply ms1 ref) : ms1 = ms := by
  unfold buildActionsList at hit
  cases hr : m.ReferencedMessage <;> simp only [hr] at hit <;> split_ifs at hit <;>
    simp only [List.nil_append, List.mem_append, List.mem_cons, List.mem_singleton,
      List.not_mem_nil, or_false, false_or] at hit <;>
    casesm* _ ∨ _ <;> subst_vars <;> simp at h <;> exact h.1.symm

theorem menuCaptured_mono (app a : App) (hroot : a.root = app.root)
    (hbl : bufferLen app ≤ bufferLen a) (hm : MenuCaptured app) : MenuCaptured a := by
  intro items hitems it hit ms ref hact
  rw [hroot] at hitems
  exact le_trans (hm items hitems it hit ms ref hact) hbl

theorem menuCaptured_mainFlex (a : App) (hroot : a.root = Root.MainFlex) : MenuCaptured a := by
  intro items hitems
  rw [hroot] at hitems
  cases hitems

theorem selectionValid_of_eq (app a : App) (hsel : a.SelectedMessage = app.SelectedMessage)
    (hbl : bufferLen app ≤ bufferLen a) (hv : SelectionValid app) : SelectionValid a := by
  unfold SelectionValid at *
  rw [hsel]
  rcases hv with h | ⟨h0, h1⟩
  · exact Or.inl h
  · exact Or.inr ⟨h0, by omega⟩

theorem nav_preserves (app app1 a : App) (ms : List Message) (r : Option String)
    (h : highlightSelected app1 ms = some (a, r))
    (hroot : app1.root = app.root) (hch : app1.SelectedChannel = app.SelectedChannel)
    (hst : app1.State = app.State) (hbl : bufferLen app = ms.length) (hm : MenuCaptured app) :
    SelectionValid a ∧ MenuCaptured a := by
  obtain ⟨h0, h1, hsel, hr, hc, hs⟩ := highlightSelected_some app1 a ms r h
  have hbla : bufferLen a = bufferLen app := bufferLen_congr a app (hc.trans hch) (hs.trans hst)
  constructor
  · right
    rw [hsel, hbla, hbl]
    exact ⟨h0, h1⟩
  · exact menuCaptured_mono app a (hr.trans hroot) (by omega) hm

theorem messagesKey_preserves (app a : App) (e : String) (r : Option String)
    (hv : SelectionValid app) (hm : MenuCaptured app)
    (h : MessagesTextView.onInputCapture app e = some (a, r)) :
    SelectionValid a ∧ MenuCaptured a := by
  unfold MessagesTextView.onInputCapture at h
  cases hch : app.SelectedChannel with
  | none =>
    simp only [hch, Option.some.injEq, Prod.mk.injEq] at h
    obtain ⟨rfl, _⟩ := h
    exact ⟨hv, hm⟩
  | some ch =>
    cases hms : app.State.Cabinet ch.ID with
    | none =>
      simp only [hch, hms, Option.some.injEq, Prod.mk.injEq] at h
      obtain ⟨rfl, _⟩ := h
      exact ⟨hv, hm⟩
    | some ms =>
      have hbl : bufferLen app = ms.length := by simp [bufferLen, hch, hms]
      simp only [hch, hms] at h
      by_cases h0 : ms.length = 0
      · rw [if_pos h0] at h
        simp only [Option.some.injEq, Prod.mk.injEq] at h
        obtain ⟨rfl, _⟩ := h
        exact ⟨hv, hm⟩
      rw [if_neg h0] at h
      by_cases h1 : e = app.Config.Keys.SelectPreviousMessage
      · rw [if_pos h1] at h
        exact nav_preserves app _ a ms r h rfl hch.symm rfl hbl hm
      rw [if_neg h1] at h
      by_cases h2 : e = app.Config.Keys.SelectNextMessage
      · rw [if_pos h2] at h
        exact nav_preserves app _ a ms r h rfl hch.symm rfl hbl hm
      rw [if_neg h2] at h
      by_cases h3 : e = app.Config.Keys.SelectFirstMessage
      · rw [if_pos h3] at h
        exact nav_preserves app _ a ms r h rfl hch.symm rfl hbl hm
      rw [if_neg h3] at h
      by_cases h4 : e = app.Config.Keys.SelectLastMessage
      · rw [if_pos h4] at h
        exact nav_preserves app _ a ms r h rfl hch.symm rfl hbl hm
      rw [if_neg h4] at h
      by_cases h5 : e = app.Config.Keys.OpenMessageActionsList
      · rw [if_pos h5] at h
        cases hhl : app.MessagesTextView.GetHighlights with
        | nil =>
          simp only [hhl, Option.some.injEq, Prod.mk.injEq] at h
          obtain ⟨rfl, _⟩ := h
          exact ⟨hv, hm⟩
        | cons mID rest =>
          simp only [hhl] at h
          cases hf : (findMessageByID ms mID).2 with
          | none =>
            simp only [hf, Option.some.injEq, Prod.mk.injEq] at h
            obtain ⟨rfl, _⟩ := h
            exact ⟨hv, hm⟩
          | some m =>
            simp only [hf, Option.some.injEq, Prod.mk.injEq] at h
            obtain ⟨rfl, _⟩ := h
            have hb := bufferLen_congr
              { app with
                  SelectedChannel := some ch
                  root := Root.actionsList (buildActionsList app ch ms m) } app hch.symm rfl
            constructor
            · exact selectionValid_of_eq app _ rfl (le_of_eq hb.symm) hv
            · intro items hitems it hit ms1 ref hact
              simp only [Root.actionsList.injEq] at hitems
              subst hitems
              have := buildActionsList_selectReply app ch ms _ it hit ms1 ref hact
              subst this
              omega
      rw [if_neg h5] at h
      by_cases h6 : e = "Esc"
      · rw [if_pos h6] at h
        simp only [Option.some.injEq, Prod.mk.injEq] at h
        obtain ⟨rfl, _⟩ := h
        exact ⟨Or.inl rfl, menuCaptured_mono app _ rfl
          (le_of_eq (bufferLen_congr _ _ hch rfl)) hm⟩
      rw [if_neg h6] at h
      simp only [Option.some.injEq, Prod.mk.injEq] at h
      obtain ⟨rfl, _⟩ := h
      exact ⟨hv, hm⟩

theorem inputKey_preserves (app a : App) (e : String) (r : Option String)
    (hv : SelectionValid app) (hm : MenuCaptured app)
    (h : MessageInput.onInputCapture app e = some (a, r)) :
    SelectionValid a ∧ MenuCaptured a := by
  have same : ∀ b : App, b.SelectedChannel = app.SelectedChannel → b.State = app.State →
      b.root = app.root → (b.SelectedMessage = app.SelectedMessage ∨ b.SelectedMessage = -1) →
      SelectionValid b ∧ MenuCaptured b := by
    intro b hc hs hr hsel
    have hb : bufferLen b = bufferLen app := bufferLen_congr b app hc hs
    refine ⟨?_, menuCaptured_mono app b hr (le_of_eq hb.symm) hm⟩
    rcases hsel with hsel | hsel
    · exact selectionValid_of_eq app b hsel (le_of_eq hb.symm) hv
    · exact Or.inl hsel
  unfold MessageInput.onInputCapture at h
  by_cases h1 : e = "Enter"
  · rw [if_pos h1] at h
    cases hch : app.SelectedChannel with
    | none =>
      simp only [hch, Option.some.injEq, Prod.mk.injEq] at h
      obtain ⟨rfl, _⟩ := h
      exact ⟨hv, hm⟩
    | some ch =>
      simp only [hch] at h
      by_cases ht : TrimSpace app.MessageInputField.text = ""
      · rw [if_pos ht] at h
        simp only [Option.some.injEq, Prod.mk.injEq] at h
        obtain ⟨rfl, _⟩ := h
        exact ⟨hv, hm⟩
      rw [if_neg ht] at h
      cases hms : app.State.Messages ch.ID app.Config.MessagesLimit with
      | none =>
        simp only [hms, Option.some.injEq, Prod.mk.injEq] at h
        obtain ⟨rfl, _⟩ := h
        exact ⟨hv, hm⟩
      | some ms =>
        simp only [hms] at h
        cases hhl : app.MessagesTextView.GetHighlights with
        | nil =>
          simp only [hhl, Option.some.injEq, Prod.mk.injEq] at h
          obtain ⟨rfl, _⟩ := h
          exact same _ hch.symm rfl rfl (Or.inl rfl)
        | cons mID rest =>
          simp only [hhl] at h
          cases hf : (findMessageByID ms mID).2 with
          | none => simp [hf] at h
          | some m =>
            simp only [hf, Option.some.injEq, Prod.mk.injEq] at h
            obtain ⟨rfl, _⟩ := h
            exact same _ hch.symm rfl rfl (Or.inr rfl)
  rw [if_neg h1] at h
  by_cases h2 : e = "Ctrl+V"
  · rw [if_pos h2] at h
    simp only [Option.some.injEq, Prod.mk.injEq] at h
    obtain ⟨rfl, _⟩ := h
    exact same _ rfl rfl rfl (Or.inl rfl)
  rw [if_neg h2] at h
  by_cases h3 : e = "Esc"
  · rw [if_pos h3] at h
    simp only [Option.some.injEq, Prod.mk.injEq] at h
    obtain ⟨rfl, _⟩ := h
    exact same _ rfl rfl rfl (Or.inr rfl)
  rw [if_neg h3] at h
  by_cases h4 : e = app.Config.Keys.OpenExternalEditor
  · rw [if_pos h4] at h
    cases hed : app.editor with
    | none =>
      simp only [hed, Option.some.injEq, Prod.mk.injEq] at h
      obtain ⟨rfl, _⟩ := h
      exact ⟨hv, hm⟩
    | some b =>
      simp only [hed, Option.some.injEq, Prod.mk.injEq] at h
      obtain ⟨rfl, _⟩ := h
      exact same _ rfl rfl rfl (Or.inl rfl)
  rw [if_neg h4] at h
  simp only [Option.some.injEq, Prod.mk.injEq] at h
  obtain ⟨rfl, _⟩ := h
  exact ⟨hv, hm⟩

theorem runAction_preserves (app : App) (act : Action)
    (hv : SelectionValid app) (hm : MenuCaptured app)
    (hact : ∀ ms ref, act = Action.selectReply ms ref → ms.length ≤ bufferLen app) :
    SelectionValid (runAction app act) ∧ MenuCaptured (runAction app act) := by
  have same : ∀ b : App, b.SelectedChannel = app.SelectedChannel → b.State = app.State →
      (b.root = app.root ∨ b.root = Root.MainFlex) → b.SelectedMessage = app.SelectedMessage →
      SelectionValid b ∧ MenuCaptured b := by
    intro b hc hs hr hsel
    have hb : bufferLen b = bufferLen app := bufferLen_congr b app hc hs
    refine ⟨selectionValid_of_eq app b hsel (le_of_eq hb.symm) hv, ?_⟩
    rcases hr with hr | hr
    · exact menuCaptured_mono app b hr (le_of_eq hb.symm) hm
    · exact menuCaptured_mainFlex b hr
  cases act with
  | reply m => exact same _ rfl rfl (Or.inr rfl) rfl
  | mentionReply m => exact same _ rfl rfl (Or.inr rfl) rfl
  | delete m => exact same _ rfl rfl (Or.inr rfl) rfl
  | selectReply ms ref =>
    have hlen := hact ms ref rfl
    refine ⟨?_, menuCaptured_mainFlex _ rfl⟩
    have hb : bufferLen (runAction app (Action.selectReply ms ref)) = bufferLen app :=
      bufferLen_congr _ _ rfl rfl
    have hsel : (runAction app (Action.selectReply ms ref)).SelectedMessage =
        (findMessageByID ms ref).1 := rfl
    unfold SelectionValid
    rw [hsel, hb]
    rcases findMessageByID_range ms ref with h | ⟨h0, h1⟩
    · exact Or.inl h
    · exact Or.inr ⟨h0, by omega⟩
  | openLink links => exact same _ rfl rfl (Or.inl rfl) rfl
  | downloadAttachment m => exact same _ rfl rfl (Or.inr rfl) rfl
  | openAttachment m => exact same _ rfl rfl (Or.inr rfl) rfl
  | copyContent m =>
    unfold runAction
    cases app.clipboard with
    | none => exact ⟨hv, hm⟩
    | some c => exact same _ rfl rfl (Or.inr rfl) rfl
  | copyID m =>
    unfold runAction
    cases app.clipboard with
    | none => exact ⟨hv, hm⟩
    | some c => exact same _ rfl rfl (Or.inr rfl) rfl

theorem selectItem_preserves (app : App) (i : Nat)
    (hv : SelectionValid app) (hm : MenuCaptured app) :
    SelectionValid (selectItem app i) ∧ MenuCaptured (selectItem app i) := by
  unfold selectItem
  cases hroot : app.root with
  | MainFlex => exact ⟨hv, hm⟩
  | actionsList items =>
    simp only
    cases hit : items[i]? with
    | none => exact ⟨hv, hm⟩
    | some it =>
      simp only
      apply runAction_preserves app it.action hv hm
      intro ms ref hact
      have hmem : it ∈ items := List.getElem?_mem hit
      exact hm items hroot it hmem ms ref hact

theorem step_preserves (app a : App) (i : Input)
    (hv : SelectionValid app) (hm : MenuCaptured app)
    (hsync : ∀ st, i = Input.sync st → bufferLen app ≤ bufferLen { app with State := st })
    (h : step app i = some a) : SelectionValid a ∧ MenuCaptured a := by
  cases i with
  | messagesKey name =>
    simp only [step, Option.map_eq_some'] at h
    obtain ⟨⟨a1, r⟩, h1, rfl⟩ := h
    exact messagesKey_preserves app a1 name r hv hm h1
  | inputKey name =>
    simp only [step, Option.map_eq_some'] at h
    obtain ⟨⟨a1, r⟩, h1, rfl⟩ := h
    exact inputKey_preserves app a1 name r hv hm h1
  | choose k =>
    simp only [step, Option.some.injEq] at h
    subst h
    exact selectItem_preserves app k hv hm
  | closeMenu =>
    simp only [step, Option.some.injEq] at h
    subst h
    have hb : bufferLen (actionsListDone app) = bufferLen app := bufferLen_congr _ _ rfl rfl
    exact ⟨selectionValid_of_eq app _ rfl (le_of_eq hb.symm) hv, menuCaptured_mainFlex _ rfl⟩
  | sync st =>
    simp only [step, Option.some.injEq] at h
    subst h
    have hle := hsync st rfl
    exact ⟨selectionValid_of_eq app _ rfl hle hv, menuCaptured_mono app _ rfl hle hm⟩

theorem run_preserves (inputs : List Input) (app a : App)
    (hv : SelectionValid app) (hm : MenuCaptured app) (hns : nonShrinking app inputs = true)
    (h : run app inputs = some a) : SelectionValid a ∧ MenuCaptured a := by
  induction inputs generalizing app with
  | nil =>
    simp only [run, Option.some.injEq] at h
    subst h
    exact ⟨hv, hm⟩
  | cons i is ih =>
    simp only [run] at h
    simp only [nonShrinking, Bool.and_eq_true] at hns
    obtain ⟨hi, hrest⟩ := hns
    cases hs : step app i with
    | none => simp [hs] at h
    | some a1 =>
      simp only [hs] at h hrest
      have hsync : ∀ st, i = Input.sync st → bufferLen app ≤ bufferLen { app with State := st } := by
        intro st hst
        subst hst
        simpa using hi
      obtain ⟨hv1, hm1⟩ := step_preserves app a1 i hv hm hsync hs
      exact ih a1 hv1 hm1 hrest h

/-- C3, the claim as stated, fails. From the unselected state on a buffer of
three messages, selecting the oldest message gives index 2; after two
messages are deleted and Enter is pressed in the empty input field the
selected index is still 2 while the buffer has length 1; and after all
messages are deleted and Esc is pressed in the messages view the selected
index is still 2 while the buffer is empty. -/
theorem selection_invariant_counterexample :
    SelectionValid (sampleApp threeMessages [] (-1) []) ∧
    (run (sampleApp threeMessages [] (-1) []) shrinkTrace).map
      (fun a => (a.SelectedMessage, bufferLen a, decide (SelectionValid a))) = some (2, 1, false) ∧
    (run (sampleApp threeMessages [] (-1) []) emptyTrace).map
      (fun a => (a.SelectedMessage, bufferLen a, decide (SelectionValid a))) = some (2, 0, false) := by
  decide

/-- C3, amended. Start in a state in which the selected index is -1 or a
valid index and no action menu is displayed, and apply any sequence of keys to
the messages view and to the input field, choices of menu entries, and
replacements of the buffer that never make it shorter. If the sequence
completes (no handler panics), the selected index is -1 or a valid index into
the buffer as read at the end. -/
theorem selection_invariant (app a : App) (inputs : List Input)
    (hv : SelectionValid app) (hroot : app.root = Root.MainFlex)
    (hns : nonShrinking app inputs = true) (h : run app inputs = some a) :
    SelectionValid a :=
  (run_preserves inputs app a hv (menuCaptured_mainFlex app hroot) hns h).1

/-- Witness of the amended C3: select the latest message, open its menu, a
message arrives, choose "Select Reply"; the run completes at index 2 of a
buffer of 4 messages. -/
theorem selection_invariant_witness :
    ∃ a, run (sampleApp replyMessages [] (-1) []) replyTrace = some a ∧
      a.SelectedMessage = 2 ∧ bufferLen a = 4 ∧ SelectionValid a :=
  ⟨_, rfl, rfl, rfl,
   selection_invariant (sampleApp replyMessages [] (-1) []) _ replyTrace (by decide) rfl rfl rfl⟩

theorem buildActionsList_delete (app : App) (ch : Channel) (ms : List Message) (m : Message) :
    "Delete" ∈ (buildActionsList app ch ms m).map (fun it => it.label) ↔
      hasPermission app.State ch.ID Permission.ManageMessages = true := by
  unfold buildActionsList
  cases hr : m.ReferencedMessage <;> simp only [hr] <;> split_ifs <;> simp_all

/-- C7, the claim as stated, fails: the client, user 9, is the author of the
selected message and does not hold the manage-messages capability; the menu
built for it is Reply, Mention Reply, Copy Content, Copy ID, without Delete. -/
theorem delete_entry_counterexample :
    (sampleMessage 30 9).Author.ID = authorApp.State.Me ∧
    (MessagesTextView.onInputCapture authorApp "Rune[a]").map (fun r => menuLabels r.1) =
      some ["Reply", "Mention Reply", "Copy Content", "Copy ID"] := by
  decide

/-- C7, amended. With a channel open and a highlighted message found in its
buffer, the key bound to `OpenMessageActionsList` (a key other than the ones
bound to the four selection actions, whose cases come first in the switch)
displays the action menu built for that message, and the menu contains the
Delete entry exactly when the client holds the manage-messages capability on
the channel, whoever wrote the message. -/
theorem delete_entry_iff (app : App) (ch : Channel) (ms : List Message) (mID : Nat)
    (rest : List Nat) (m : Message)
    (hch : app.SelectedChannel = some ch) (hms : app.State.Cabinet ch.ID = some ms)
    (hhl : app.MessagesTextView.GetHighlights = mID :: rest)
    (hf : (findMessageByID ms mID).2 = some m)
    (h1 : app.Config.Keys.OpenMessageActionsList ≠ app.Config.Keys.SelectPreviousMessage)
    (h2 : app.Config.Keys.OpenMessageActionsList ≠ app.Config.Keys.SelectNextMessage)
    (h3 : app.Config.Keys.OpenMessageActionsList ≠ app.Config.Keys.SelectFirstMessage)
    (h4 : app.Config.Keys.OpenMessageActionsList ≠ app.Config.Keys.SelectLastMessage) :
    ∃ a, MessagesTextView.onInputCapture app app.Config.Keys.OpenMessageActionsList = some (a, none) ∧
      a.root = Root.actionsList (buildActionsList app ch ms m) ∧
      ("Delete" ∈ menuLabels a ↔ Permission.ManageMessages ∈ app.State.Permissions ch.ID) := by
  have hne : ms.length ≠ 0 := by
    intro h0
    have : ms = [] := List.length_eq_zero.mp h0
    subst this
    simp [findMessageByID] at hf
  refine ⟨{ app with root := Root.actionsList (buildActionsList app ch ms m) }, ?_, rfl, ?_⟩
  · simp [MessagesTextView.onInputCapture, hch, hms, hne, h1, h2, h3, h4, hhl, hf]
  · rw [show menuLabels { app with root := Root.actionsList (buildActionsList app ch ms m) }
        = (buildActionsList app ch ms m).map (fun it => it.label) from rfl,
      buildActionsList_delete]
    simp [hasPermission]

/-- Witness of the amended C7: a client that holds only the manage-messages
capability, on a message written by someone else. -/
theorem delete_entry_iff_witness :
    ∃ a, MessagesTextView.onInputCapture
        (sampleApp threeMessages [Permission.ManageMessages] 1 [20]) "Rune[a]" = some (a, none) ∧
      a.root = Root.actionsList
        (buildActionsList (sampleApp threeMessages [Permission.ManageMessages] 1 [20]) { ID := 1 }
          threeMessages (sampleMessage 20 5)) ∧
      ("Delete" ∈ menuLabels a ↔ Permission.ManageMessages ∈ [Permission.ManageMessages]) :=
  delete_entry_iff (sampleApp threeMessages [Permission.ManageMessages] 1 [20]) { ID := 1 }
    threeMessages 20 [] (sampleMessage 20 5) rfl rfl rfl (by decide) (by decide) (by decide)
    (by decide) (by decide)

end ui

namespace guilds

theorem countRefList_append (gID : Nat) (cs ds : List TreeNode) :
    countRefList gID (cs ++ ds) = countRefList gID cs + countRefList gID ds := by
  induction cs with
  | nil => simp [countRefList]
  | cons c cs ih => simp [countRefList, ih, Nat.add_assoc]

theorem countRef_AddChild (gID : Nat) (root node : TreeNode) :
    (root.AddChild node).countRef gID = root.countRef gID + node.countRef gID := by
  cases root with
  | mk t r cs =>
    simp [TreeNode.AddChild, TreeNode.countRef, countRefList_append, countRefList, Nat.add_assoc]

theorem addGuildsToRoot_ok (cab : Nat → Option Guild) (G : Nat → Guild) (ids : List Nat)
    (t : String) (r : Option Nat) (cs : List TreeNode)
    (h : ∀ gID ∈ ids, cab gID = some (G gID)) :
    addGuildsToRoot cab ids (TreeNode.mk t r cs) =
      Except.ok (TreeNode.mk t r
        (cs ++ ids.map (fun gID => TreeNode.mk (G gID).Name (some (G gID).ID) []))) := by
  induction ids generalizing cs with
  | nil => simp [addGuildsToRoot]
  | cons gID rest ih =>
    have hg := h gID (List.mem_cons_self _ _)
    simp only [addGuildsToRoot, hg]
    rw [show (TreeNode.mk t r cs).AddChild (guildNode (G gID))
          = TreeNode.mk t r (cs ++ [TreeNode.mk (G gID).Name (some (G gID).ID) []]) from rfl]
    rw [ih _ (fun g hg => h g (List.mem_cons_of_mem _ hg))]
    simp

theorem addGuildsToFolder_ok (cab : Nat → Option Guild) (G : Nat → Guild) (ids : List Nat)
    (t : String) (r : Option Nat) (cs : List TreeNode)
    (ft : String) (fr : Option Nat) (fcs : List TreeNode)
    (h : ∀ gID ∈ ids, cab gID = some (G gID)) :
    addGuildsToFolder cab ids (TreeNode.mk t r (cs ++ [TreeNode.mk ft fr fcs])) =
      Except.ok (TreeNode.mk t r (cs ++ [TreeNode.mk ft fr
        (fcs ++ ids.map (fun gID => TreeNode.mk (G gID).Name (some (G gID).ID) []))])) := by
  induction ids generalizing fcs with
  | nil => simp [addGuildsToFolder]
  | cons gID rest ih =>
    have hg := h gID (List.mem_cons_self _ _)
    simp only [addGuildsToFolder, hg]
    have : (TreeNode.mk t r (cs ++ [TreeNode.mk ft fr fcs])).addToLastChild (guildNode (G gID))
        = TreeNode.mk t r (cs ++ [TreeNode.mk ft fr
            (fcs ++ [TreeNode.mk (G gID).Name (some (G gID).ID) []])]) := by
      simp [TreeNode.addToLastChild, TreeNode.AddChild, guildNode, NewTreeNode, TreeNode.SetReference]
    rw [this, ih _ (fun g hg => h g (List.mem_cons_of_mem _ hg))]
    simp

theorem addFolders_ok (cab : Nat → Option Guild) (G : Nat → Guild) (folders : List GuildFolder)
    (t : String) (r : Option Nat) (cs : List TreeNode)
    (h : ∀ gf ∈ folders, ∀ gID ∈ gf.GuildIDs, cab gID = some (G gID)) :
    addFolders cab folders (TreeNode.mk t r cs) =
      Except.ok (TreeNode.mk t r (cs ++ readyNodes G folders)) := by
  induction folders generalizing cs with
  | nil => simp [addFolders, readyNodes]
  | cons gf rest ih =>
    have hgf := h gf (List.mem_cons_self _ _)
    have hrest : ∀ gf ∈ rest, ∀ gID ∈ gf.GuildIDs, cab gID = some (G gID) :=
      fun g hg => h g (List.mem_cons_of_mem _ hg)
    unfold addFolders
    by_cases h0 : gf.ID = 0
    · rw [if_pos h0, addGuildsToRoot_ok cab G gf.GuildIDs t r cs hgf]
      simp only
      rw [ih _ hrest]
      simp [readyNodes, h0]
    · rw [if_neg h0]
      rw [show (TreeNode.mk t r cs).AddChild (NewTreeNode (folderText gf))
            = TreeNode.mk t r (cs ++ [TreeNode.mk (folderText gf) none []]) from rfl]
      rw [addGuildsToFolder_ok cab G gf.GuildIDs t r cs (folderText gf) none [] hgf]
      simp only
      rw [ih _ hrest]
      simp [readyNodes, h0]

/-- C8. For every ready payload whose guild identifiers all resolve (`G` gives
the guild of each), `onStateReady` leaves the root with its former children
followed, in payload order, by one node per folder entry with a non-zero
folder id, holding one child per guild of the folder, and one node per guild
of each entry with folder id 0; every guild node has the guild's identifier as
its reference (this is `readyNodes`). The handler then makes the root the
current node and focuses the guilds tree. -/
theorem onStateReady_spec (app : App) (r : ReadyEvent) (G : Nat → Guild)
    (h : ∀ gf ∈ r.GuildFolders, ∀ gID ∈ gf.GuildIDs, app.CabinetGuild gID = some (G gID)) :
    (app.onStateReady r).root =
      TreeNode.mk app.root.GetText app.root.GetReference
        (app.root.GetChildren ++ readyNodes G r.GuildFolders) ∧
    (app.onStateReady r).currentNode = some [] ∧ (app.onStateReady r).focusGuildsTree = true := by
  have key : addFolders app.CabinetGuild r.GuildFolders app.root =
      Except.ok (TreeNode.mk app.root.GetText app.root.GetReference
        (app.root.GetChildren ++ readyNodes G r.GuildFolders)) := by
    cases hroot : app.root with
    | mk t ref cs => exact addFolders_ok app.CabinetGuild G r.GuildFolders t ref cs h
  simp only [App.onStateReady, key, and_self]

/-- Witness of C8: folder 5 with the guilds 7 and 8, then guild 9 outside any
folder, on an empty tree. -/
theorem onStateReady_spec_witness :
    (emptyApp.onStateReady folderPayload).root =
      TreeNode.mk "" none
        [TreeNode.mk "[#ED4245]Folder[-]" none
           [TreeNode.mk "guild" (some 7) [], TreeNode.mk "guild" (some 8) []],
         TreeNode.mk "guild" (some 9) []] ∧
    (emptyApp.onStateReady folderPayload).currentNode = some [] ∧
    (emptyApp.onStateReady folderPayload).focusGuildsTree = true :=
  onStateReady_spec emptyApp folderPayload (fun gID => { ID := gID, Name := "guild" })
    (fun _ _ _ _ => rfl)

/-- C5, the claim as stated, fails: on an empty tree, one guild-available
event for guild 7 leaves one node for it and the same event applied again
leaves two, so the second application changed the tree. -/
theorem guildCreate_counterexample :
    (emptyApp.onStateGuildCreate { ID := 7, Name := "g" }).root.countRef 7 = 1 ∧
    ((emptyApp.onStateGuildCreate { ID := 7, Name := "g" }).onStateGuildCreate
        { ID := 7, Name := "g" }).root.countRef 7 = 2 := by
  decide

/-- C5, amended. `onStateGuildCreate` always appends one new node for the
guild as the last child of the root, whether or not a node with that
identifier is present: the number of nodes whose reference is the guild's
identifier grows by one with each application, by two when the same event is
applied twice. -/
theorem guildCreate_appends (app : App) (g : Guild) :
    (app.onStateGuildCreate g).root.GetChildren =
      app.root.GetChildren ++ [TreeNode.mk g.Name (some g.ID) []] ∧
    (app.onStateGuildCreate g).root.countRef g.ID = app.root.countRef g.ID + 1 ∧
    ((app.onStateGuildCreate g).onStateGuildCreate g).root.countRef g.ID =
      app.root.countRef g.ID + 2 := by
  have hnode : ((NewTreeNode g.Name).SetReference g.ID).countRef g.ID = 1 := by
    simp [NewTreeNode, TreeNode.SetReference, TreeNode.countRef, countRefList]
  refine ⟨?_, ?_, ?_⟩
  · cases hroot : app.root with
    | mk t r cs => simp [App.onStateGuildCreate, hroot, TreeNode.AddChild, TreeNode.GetChildren,
        NewTreeNode, TreeNode.SetReference]
  · simp only [App.onStateGuildCreate, countRef_AddChild, hnode]
  · simp only [App.onStateGuildCreate, countRef_AddChild, hnode]

mutual
theorem walk_noMatch (gID : Nat) :
    ∀ (n : TreeNode) (pos : List Nat) (s : Option (List Nat)), n.countRef gID = 0 →
      n.Walk (deleteCallback gID) pos s = s
  | TreeNode.mk t r cs, pos, s, h => by
    have hr : r ≠ some gID := by
      intro hr
      simp [TreeNode.countRef, hr] at h
    have hcs : countRefList gID cs = 0 := by
      simp only [TreeNode.countRef, if_neg hr] at h
      omega
    rw [TreeNode.Walk]
    simp only [deleteCallback, TreeNode.GetReference, if_neg hr]
    exact walkChildren_noMatch gID cs pos 0 s hcs
theorem walkChildren_noMatch (gID : Nat) :
    ∀ (cs : List TreeNode) (pos : List Nat) (i : Nat) (s : Option (List Nat)),
      countRefList gID cs = 0 → walkChildren (deleteCallback gID) cs pos i s = s
  | [], _, _, _, _ => by rw [walkChildren]
  | c :: cs, pos, i, s, h => by
    simp only [countRefList] at h
    rw [walkChildren, walk_noMatch gID c (pos ++ [i]) s (by omega)]
    exact walkChildren_noMatch gID cs pos (i + 1) s (by omega)
end

theorem onStateGuildDelete_absent (app : App) (gID : Nat) (h : app.root.countRef gID = 0) :
    (app.onStateGuildDelete gID).root = app.root := by
  simp only [App.onStateGuildDelete, walk_noMatch gID app.root [] none h]

theorem walkChildren_append {σ : Type} (cb : σ → TreeNode → List Nat → σ × Bool)
    (xs ys : List TreeNode) (pos : List Nat) (i : Nat) (s : σ) :
    walkChildren cb (xs ++ ys) pos i s =
      walkChildren cb ys pos (i + xs.length) (walkChildren cb xs pos i s) := by
  induction xs generalizing i s with
  | nil => simp [walkChildren]
  | cons x xs ih =>
    rw [List.cons_append, walkChildren, walkChildren, ih, List.length_cons,
      show i + 1 + xs.length = i + (xs.length + 1) by omega]

theorem onStateGuildDelete_topLevel (app : App) (gID : Nat) (t : String) (r : Option Nat)
    (pre post : List TreeNode) (gt : String) (gcs : List TreeNode)
    (hroot : app.root = TreeNode.mk t r (pre ++ TreeNode.mk gt (some gID) gcs :: post))
    (hr : r ≠ some gID) (hpre : countRefList gID pre = 0) (hpost : countRefList gID post = 0) :
    (app.onStateGuildDelete gID).root = TreeNode.mk t r (pre ++ post) := by
  have hwalk : app.root.Walk (deleteCallback gID) [] none = some [pre.length] := by
    rw [hroot, TreeNode.Walk]
    simp only [deleteCallback, TreeNode.GetReference, if_neg hr]
    rw [walkChildren_append, walkChildren_noMatch gID pre [] 0 none hpre]
    rw [walkChildren, TreeNode.Walk]
    simp only [deleteCallback, TreeNode.GetReference, if_true]
    rw [walkChildren_noMatch gID post [] _ _ hpost]
    simp
  simp only [App.onStateGuildDelete, hwalk]
  rw [hroot]
  simp only [TreeNode.RemoveChild]
  congr 1
  clear hroot hwalk hpre
  induction pre with
  | nil => rfl
  | cons p ps ih => simp only [List.cons_append, List.length_cons, List.eraseIdx_cons_succ, ih]

/-- C6 at its failing input: the ready payload puts guild 7 in folder 5; the
guild-removed event for guild 7 leaves the tree with the node of guild 7 still
in the folder, while the event for guild 9, a direct child of the root,
removes its node. -/
theorem guildDelete_in_folder :
    (emptyApp.onStateReady folderPayload).root.countRef 7 = 1 ∧
    ((emptyApp.onStateReady folderPayload).onStateGuildDelete 7).root.countRef 7 = 1 ∧
    ((emptyApp.onStateReady folderPayload).onStateGuildDelete 7).root.GetChildren.length = 2 ∧
    ((emptyApp.onStateReady folderPayload).onStateGuildDelete 9).root.countRef 9 = 0 := by
  decide

end guilds

namespace markdown

/-- C9. `Parse("**a*b*c**", "green")` is `[::b]a[::i]b[::I]c[::B]`: the bold
rule takes the whole span, the italic rule then rewrites the inner `*b*`. -/
theorem parse_hazard_case (unicode : Char → Bool) :
    Parse unicode "**a*b*c**" "green" = "[::b]a[::i]b[::I]c[::B]" := by
  have h1 : regexp.ReplaceAllString unicode boldRe "**a*b*c**" "[::b]$1[::B]" = "[::b]a*b*c[::B]" :=
    of_decide_eq_true (Eq.refl true)
  have h2 : regexp.ReplaceAllString unicode italicRe "[::b]a*b*c[::B]" "[::i]$1[::I]"
      = "[::b]a[::i]b[::I]c[::B]" := of_decide_eq_true (Eq.refl true)
  have h3 : regexp.ReplaceAllString unicode underlineRe "[::b]a[::i]b[::I]c[::B]" "[::u]$1[::U]"
      = "[::b]a[::i]b[::I]c[::B]" := of_decide_eq_true (Eq.refl true)
  have h4 : regexp.ReplaceAllString unicode strikethroughRe "[::b]a[::i]b[::I]c[::B]" "[::s]$1[::S]"
      = "[::b]a[::i]b[::I]c[::B]" := of_decide_eq_true (Eq.refl true)
  have h5 : regexp.ReplaceAllString unicode codeblockRe "[::b]a[::i]b[::I]c[::B]" "[::r]$1[::R]"
      = "[::b]a[::i]b[::I]c[::B]" := of_decide_eq_true (Eq.refl true)
  have h6 : regexp.ReplaceAllString unicode emoteRe "[::b]a[::i]b[::I]c[::B]"
      ("[" ++ "green" ++ "]$1[-:-:-]") = "[::b]a[::i]b[::I]c[::B]" :=
    of_decide_eq_true (Eq.refl true)
  simp only [Parse, h1, h2, h3, h4, h5, h6]

end markdown

namespace plugin

theorem loadEntries_plugins (env : Env) (path : String) (names : List String) (reg : Registry) :
    (loadEntries env path names reg).plugins = reg.plugins ++ instantiated env path names := by
  induction names generalizing reg with
  | nil => simp [loadEntries, instantiated]
  | cons name rest ih =>
    unfold loadEntries
    cases h : env.NewPlugin (manifestOf path name) with
    | error err =>
      simp only [ih]
      simp [instantiated, h]
    | ok plugin =>
      simp only [ih]
      simp [instantiated, h]

/-- C11. When the extension directory is read without error, with the entries
`names`, `Load` returns no error and the registry afterwards is the registry
before followed by the instances of the entries that instantiated, in
discovery order, whatever the outcome of each instantiation; when the
directory does not exist, `Load` returns no error and leaves the registry, log
included, as it was. -/
theorem load_spec (env : Env) (reg : Registry) :
    (∀ names, env.ReadDir (Join env.ConfigDirPath "plugins") = ReadDirResult.entries names →
      (Load env reg).1 = none ∧
      (Load env reg).2.plugins =
        reg.plugins ++ instantiated env (Join env.ConfigDirPath "plugins") names) ∧
    (env.ReadDir (Join env.ConfigDirPath "plugins") = ReadDirResult.notExist →
      Load env reg = (none, reg)) := by
  constructor
  · intro names h
    simp only [Load, h, loadEntries_plugins, and_self]
  · intro h
    simp only [Load, h]

/-- Witness of C11: a directory with one invalid and one valid module file,
loaded into an empty registry, gives no error and exactly one registered
instance; without the directory the registry stays empty. -/
theorem load_spec_witness :
    ((Load sampleEnv { plugins := [], log := [] }).1 = none ∧
     (Load sampleEnv { plugins := [], log := [] }).2.plugins =
       [] ++ instantiated sampleEnv (Join sampleEnv.ConfigDirPath "plugins")
         ["bad.wasm", "good.wasm"]) ∧
    (Load sampleEnv { plugins := [], log := [] }).2.plugins.length = 1 ∧
    Load absentEnv { plugins := [], log := [] } = (none, { plugins := [], log := [] }) :=
  ⟨(load_spec sampleEnv { plugins := [], log := [] }).1 ["bad.wasm", "good.wasm"] (by decide),
   by decide,
   (load_spec absentEnv { plugins := [], log := [] }).2 rfl⟩

end plugin

end Discordo
